import Mathlib

/-!
Verification development for the `code2dtree` repository.

This file gives a shallow embedding, in Lean 4, of the algorithmic core of
`code2dtree`: the interval arithmetic (`interval.py`), the symbolic
expression model and affine parser (`expr.py`, `linExpr.py`), the
linear-constraint domination explorer (`linExpr.py`), the path-scoped
memoizing explorer (`treeExplorer.py`), the decision-tree node structure
with its `explored` flags (`node.py`) and the replay automaton
`RepeatedRunTreeGen` (`rrtg.py`).

Modelling conventions:
* Python `Real` values (`int | float | Fraction`) are modelled as `ℚ`.
* Python `dict`s are modelled as association lists kept sorted by key.
  Every observation the verified claims depend on (lookup, membership,
  `frozenset(d.items())` equality, `argReprMin` over the keys) is
  insensitive to dict iteration order, so a sorted association list is an
  observationally faithful model; `frozenset` equality becomes plain list
  equality because both sides are sorted and key-distinct.
* Variable names are `String`s; `argReprMin` compares `repr(name)` which
  for plain string names orders exactly like the names themselves, so we
  use the `String` linear order.
* Code that can raise is modelled in `Except String`; a Python `assert`
  or `raise` is an `.error`.
* Mutation is modelled by explicit state passing; parent pointers of tree
  nodes are replaced by root-paths (`List Nat` of child-slot indices).
-/

set_option maxHeartbeats 1000000

namespace Code2dtree

/-- Decidable equality for `Except`, used to evaluate the embedded
functions at concrete inputs. -/
instance instDecEqExcept {ε α : Type} [DecidableEq ε] [DecidableEq α] :
    DecidableEq (Except ε α) := fun x y =>
  match x, y with
  | .ok a, .ok b =>
    if h : a = b then .isTrue (by rw [h]) else
      .isFalse (fun hc => h (Except.ok.inj hc))
  | .error a, .error b =>
    if h : a = b then .isTrue (by rw [h]) else
      .isFalse (fun hc => h (Except.error.inj hc))
  | .ok _, .error _ => .isFalse (fun hc => Except.noConfusion hc)
  | .error _, .ok _ => .isFalse (fun hc => Except.noConfusion hc)

/-! ### Intervals (`interval.py`)

`beg = none` means `-∞`, `en = none` means `+∞` (the Python attribute is
called `end`, which is a Lean keyword). -/

structure Interval where
  beg : Option ℚ
  en : Option ℚ
  begClosed : Bool
  endClosed : Bool
deriving DecidableEq

namespace Interval

/-- `Interval.contains`: `leftIn and rightIn` exactly as in the source. -/
def contains (I : Interval) (x : ℚ) : Bool :=
  (match I.beg with
   | none => true
   | some b => decide (x > b) || (decide (x ≥ b) && I.begClosed)) &&
  (match I.en with
   | none => true
   | some e => decide (x < e) || (decide (x ≤ e) && I.endClosed))

/-- `Interval.isEmpty`. -/
def isEmpty (I : Interval) : Bool :=
  match I.beg, I.en with
  | some b, some e => decide (b > e) || (decide (b ≥ e) && !(I.begClosed && I.endClosed))
  | _, _ => false

/-- The lower-endpoint computation of `Interval.intersect` (first block of
the source function), returning `(beg, begClosed)`. -/
def interBeg : Option ℚ → Bool → Option ℚ → Bool → Option ℚ × Bool
  | none, sc, none, oc => (none, sc && oc)
  | none, _, some b, oc => (some b, oc)
  | some a, sc, none, _ => (some a, sc)
  | some a, sc, some b, oc =>
    if b < a then (some a, sc)
    else if a < b then (some b, oc)
    else (some a, sc && oc)

/-- The upper-endpoint computation of `Interval.intersect` (second block of
the source function), returning `(end, endClosed)`. -/
def interEnd : Option ℚ → Bool → Option ℚ → Bool → Option ℚ × Bool
  | none, sc, none, oc => (none, sc && oc)
  | none, _, some e, oc => (some e, oc)
  | some a, sc, none, _ => (some a, sc)
  | some a, sc, some e, oc =>
    if a < e then (some a, sc)
    else if e < a then (some e, oc)
    else (some a, sc && oc)

/-- `Interval.intersect`. -/
def intersect (I J : Interval) : Interval :=
  let b := interBeg I.beg I.begClosed J.beg J.begClosed
  let e := interEnd I.en I.endClosed J.en J.endClosed
  ⟨b.1, e.1, b.2, e.2⟩

/-- The `leftIn` half of `contains`, as a standalone function. -/
def leftIn (beg : Option ℚ) (c : Bool) (x : ℚ) : Bool :=
  match beg with
  | none => true
  | some b => decide (x > b) || (decide (x ≥ b) && c)

/-- The `rightIn` half of `contains`, as a standalone function. -/
def rightIn (en : Option ℚ) (c : Bool) (x : ℚ) : Bool :=
  match en with
  | none => true
  | some e => decide (x < e) || (decide (x ≤ e) && c)

theorem contains_eq (I : Interval) (x : ℚ) :
    I.contains x = (leftIn I.beg I.begClosed x && rightIn I.en I.endClosed x) := by
  cases I with
  | mk b e bc ec => cases b <;> cases e <;> rfl

theorem leftIn_interBeg (a : Option ℚ) (sc : Bool) (b : Option ℚ) (oc : Bool) (x : ℚ) :
    leftIn (interBeg a sc b oc).1 (interBeg a sc b oc).2 x =
      (leftIn a sc x && leftIn b oc x) := by
  match a, b with
  | none, none => cases sc <;> cases oc <;> simp [interBeg, leftIn]
  | none, some q => simp [interBeg, leftIn]
  | some p, none => simp [interBeg, leftIn]
  | some p, some q =>
    rcases lt_trichotomy q p with h | h | h
    · simp only [interBeg, if_pos h, leftIn]
      rw [Bool.eq_iff_iff]
      simp only [Bool.and_eq_true, Bool.or_eq_true, decide_eq_true_eq]
      constructor
      · intro h1
        refine ⟨h1, ?_⟩
        have hq : q < x := by
          rcases h1 with h1 | ⟨h1, _⟩ <;> linarith
        exact Or.inl hq
      · exact fun h1 => h1.1
    · subst h
      simp only [interBeg, lt_irrefl, if_neg (lt_irrefl q), leftIn]
      cases sc <;> cases oc <;> by_cases hx : x > q <;>
        by_cases hx' : x ≥ q <;> simp [hx, hx']
    · have hnlt : ¬ (q < p) := not_lt.mpr (le_of_lt h)
      simp only [interBeg, if_neg hnlt, if_pos h, leftIn]
      rw [Bool.eq_iff_iff]
      simp only [Bool.and_eq_true, Bool.or_eq_true, decide_eq_true_eq]
      constructor
      · intro h1
        refine ⟨?_, h1⟩
        have hp : p < x := by
          rcases h1 with h1 | ⟨h1, _⟩ <;> linarith
        exact Or.inl hp
      · exact fun h1 => h1.2

theorem rightIn_interEnd (a : Option ℚ) (sc : Bool) (b : Option ℚ) (oc : Bool) (x : ℚ) :
    rightIn (interEnd a sc b oc).1 (interEnd a sc b oc).2 x =
      (rightIn a sc x && rightIn b oc x) := by
  match a, b with
  | none, none => cases sc <;> cases oc <;> simp [interEnd, rightIn]
  | none, some q => simp [interEnd, rightIn]
  | some p, none => simp [interEnd, rightIn]
  | some p, some q =>
    rcases lt_trichotomy p q with h | h | h
    · simp only [interEnd, if_pos h, rightIn]
      rw [Bool.eq_iff_iff]
      simp only [Bool.and_eq_true, Bool.or_eq_true, decide_eq_true_eq]
      constructor
      · intro h1
        refine ⟨h1, ?_⟩
        have hq : x < q := by
          rcases h1 with h1 | ⟨h1, _⟩ <;> linarith
        exact Or.inl hq
      · exact fun h1 => h1.1
    · subst h
      simp only [interEnd, lt_irrefl, if_neg (lt_irrefl p), rightIn]
      cases sc <;> cases oc <;> by_cases hx : x < p <;>
        by_cases hx' : x ≤ p <;> simp [hx, hx']
    · have hnlt : ¬ (p < q) := not_lt.mpr (le_of_lt h)
      simp only [interEnd, if_neg hnlt, if_pos h, rightIn]
      rw [Bool.eq_iff_iff]
      simp only [Bool.and_eq_true, Bool.or_eq_true, decide_eq_true_eq]
      constructor
      · intro h1
        refine ⟨?_, h1⟩
        have hp : x < p := by
          rcases h1 with h1 | ⟨h1, _⟩ <;> linarith
        exact Or.inl hp
      · exact fun h1 => h1.2

/-- Pointwise characterization of `intersect`: membership in the
intersection is the conjunction of memberships. -/
theorem contains_intersect (I J : Interval) (x : ℚ) :
    (I.intersect J).contains x = (I.contains x && J.contains x) := by
  rw [contains_eq, contains_eq, contains_eq]
  show (leftIn (interBeg I.beg I.begClosed J.beg J.begClosed).1
      (interBeg I.beg I.begClosed J.beg J.begClosed).2 x &&
    rightIn (interEnd I.en I.endClosed J.en J.endClosed).1
      (interEnd I.en I.endClosed J.en J.endClosed).2 x) = _
  rw [leftIn_interBeg, rightIn_interEnd]
  cases leftIn I.beg I.begClosed x <;> cases rightIn I.en I.endClosed x <;>
    cases leftIn J.beg J.begClosed x <;> cases rightIn J.en J.endClosed x <;> rfl

/-- An empty interval contains no point. -/
theorem not_contains_of_isEmpty (I : Interval) (x : ℚ) (h : I.isEmpty = true) :
    I.contains x = false := by
  cases I with
  | mk b e bc ec =>
    match b, e with
    | none, none => simp [isEmpty] at h
    | none, some q => simp [isEmpty] at h
    | some p, none => simp [isEmpty] at h
    | some p, some q =>
      simp only [isEmpty, Bool.or_eq_true, decide_eq_true_eq, Bool.and_eq_true,
        Bool.not_eq_true'] at h
      rw [Bool.eq_false_iff]
      intro hc
      simp only [contains, Bool.and_eq_true, Bool.or_eq_true, decide_eq_true_eq] at hc
      obtain ⟨hl, hr⟩ := hc
      have hpx : p ≤ x := by rcases hl with h1 | ⟨h1, _⟩ <;> linarith
      have hxq : x ≤ q := by rcases hr with h1 | ⟨h1, _⟩ <;> linarith
      rcases h with h | ⟨hge, hbe⟩
      · linarith
      · have hpq : p = q := le_antisymm (hpx.trans hxq) hge
        have hxp : x = p := le_antisymm (hpq ▸ hxq) hpx
        rcases Bool.and_eq_false_iff.mp hbe with hb | hb
        · rcases hl with h1 | ⟨_, h2⟩
          · exact absurd h1 (by rw [hxp]; exact lt_irrefl p)
          · rw [hb] at h2; exact Bool.false_ne_true h2
        · rcases hr with h1 | ⟨_, h2⟩
          · exact absurd h1 (by rw [hxp, hpq]; exact lt_irrefl q)
          · rw [hb] at h2; exact Bool.false_ne_true h2

end Interval

/-! ### Symbolic expressions (`expr.py`, `aggExpr.py`, `linExpr.py`)

`Expr` models the closed set of expression variants.  A Python operand that
is a plain number (not an `Expr` instance) is modelled by the `const`
constructor; the `isinstance(·, Expr)` tests of the source translate to
"is not a `const`".  `LinCmpExpr` is the canonical affine comparison. -/

structure LinCmpExpr where
  coeffMap : List (String × ℚ)
  op : String
  rhs : ℚ
deriving DecidableEq

inductive Expr where
  | var (name : String)
  | const (val : ℚ)
  | unE (op : String) (arg : Expr)
  | binE (op : String) (larg rarg : Expr)
  | aggE (op : String) (args : List Expr)
  | linCmp (lin : LinCmpExpr)

/-- Structural keys, as produced by the `key()` methods: nested tuples of
class name, operator and operand keys; a `frozenset` of coefficient pairs
is modelled as the name-sorted list of pairs. -/
inductive EKey where
  | var (name : String)
  | const (val : ℚ)
  | unE (op : String) (k : EKey)
  | binE (op : String) (l r : EKey)
  | aggE (op : String) (ks : List EKey)
  | linCmp (coeffs : List (String × ℚ)) (op : String) (rhs : ℚ)

/-- Insert a pair into a name-sorted coefficient list. -/
def insertSorted (p : String × ℚ) : List (String × ℚ) → List (String × ℚ)
  | [] => [p]
  | q :: rest => if p.1 < q.1 then p :: q :: rest else q :: insertSorted p rest

/-- Name-sort a coefficient list (the order-insensitive content of a
`frozenset` of `dict.items()`). -/
def sortCoeffs (d : List (String × ℚ)) : List (String × ℚ) := d.foldr insertSorted []

/-- `LinCmpExpr.key`: `(class name, frozenset(coeffMap.items()), op, rhs)`. -/
def LinCmpExpr.key (l : LinCmpExpr) : EKey := .linCmp (sortCoeffs l.coeffMap) l.op l.rhs

mutual

/-- The `key()` methods of `Var`, `BinExpr`, `UnExpr`, `AggExpr`,
`LinCmpExpr`; a literal operand is its own key. -/
def Expr.key : Expr → EKey
  | .var name => .var name
  | .const v => .const v
  | .unE op a => .unE op (Expr.key a)
  | .binE op l r => .binE op (Expr.key l) (Expr.key r)
  | .aggE op args => .aggE op (Expr.keyList args)
  | .linCmp l => l.key
termination_by structural e => e

def Expr.keyList : List Expr → List EKey
  | [] => []
  | e :: es => Expr.key e :: Expr.keyList es
termination_by structural es => es

end

mutual

/-- Structural Boolean equality of keys (Python tuple/frozenset equality). -/
def EKey.beq : EKey → EKey → Bool
  | .var a, .var b => a == b
  | .const a, .const b => a == b
  | .unE o1 a, .unE o2 b => o1 == o2 && EKey.beq a b
  | .binE o1 l1 r1, .binE o2 l2 r2 => o1 == o2 && EKey.beq l1 l2 && EKey.beq r1 r2
  | .aggE o1 a, .aggE o2 b => o1 == o2 && EKey.beqList a b
  | .linCmp c1 o1 r1, .linCmp c2 o2 r2 => c1 == c2 && o1 == o2 && r1 == r2
  | _, _ => false
termination_by structural k => k

def EKey.beqList : List EKey → List EKey → Bool
  | [], [] => true
  | a :: as', b :: bs' => EKey.beq a b && EKey.beqList as' bs'
  | _, _ => false
termination_by structural ks => ks

end

/-! ### The affine parser (`linExpr.py`)

Python dicts of coefficients are modelled as name-sorted association
lists; `coeffAdd` is `coeffDict[name] += coeffMul` (with insertion on
`KeyError`). -/

abbrev CoeffMap := List (String × ℚ)

/-- `coeffDict[expr.name] += coeffMul`, inserting if absent; keeps the
list sorted by name. -/
def coeffAdd (name : String) (c : ℚ) : CoeffMap → CoeffMap
  | [] => [(name, c)]
  | (k, v) :: rest =>
    if name = k then (k, v + c) :: rest
    else if name < k then (name, c) :: (k, v) :: rest
    else (k, v) :: coeffAdd name c rest

mutual

/-- `parseAffineHelper`: returns the updated coefficient dict and the
constant term.  The `AggExpr` case (`sum(...)`) is `parseAffineList`. -/
def parseAffineHelper : Expr → ℚ → CoeffMap → Except String (CoeffMap × ℚ)
  | .var name, coeffMul, d => .ok (coeffAdd name coeffMul d, 0)
  | .unE op a, coeffMul, d =>
    if op = "+" then parseAffineHelper a coeffMul d
    else if op = "-" then parseAffineHelper a (-coeffMul) d
    else .error ("parseAffineHelper: unsupported operator " ++ op)
  | .binE op l r, coeffMul, d =>
    if op = "+" then
      match parseAffineHelper l coeffMul d with
      | .error s => .error s
      | .ok (d1, c1) =>
        match parseAffineHelper r coeffMul d1 with
        | .error s => .error s
        | .ok (d2, c2) => .ok (d2, c1 + c2)
    else if op = "-" then
      match parseAffineHelper l coeffMul d with
      | .error s => .error s
      | .ok (d1, c1) =>
        match parseAffineHelper r (-coeffMul) d1 with
        | .error s => .error s
        | .ok (d2, c2) => .ok (d2, c1 + c2)
    else if op = "*" then
      match l, r with
      | .const _, .const _ => .error "parseAffineHelper: encountered product of non-expressions"
      | .const cl, _ => parseAffineHelper r (coeffMul * cl) d
      | _, .const cr => parseAffineHelper l (coeffMul * cr) d
      | _, _ => .error "parseAffineHelper: encountered product of expressions"
    else .error ("parseAffineHelper: unsupported operator " ++ op)
  | .aggE op args, coeffMul, d =>
    if op = "+" then parseAffineList args coeffMul d
    else .error ("parseAffineHelper: unsupported AggExpr operator " ++ op)
  | .linCmp _, _, _ => .error "parseAffineHelper: unknown Expr type LinCmpExpr"
  | .const x, coeffMul, d => .ok (d, x * coeffMul)
termination_by structural e => e

/-- `sum([parseAffineHelper(arg, coeffMul, coeffDict) for arg in expr.args])`:
the arguments are processed left to right on the shared dict and the
constant terms are summed (empty sum is `0`). -/
def parseAffineList : List Expr → ℚ → CoeffMap → Except String (CoeffMap × ℚ)
  | [], _, d => .ok (d, 0)
  | e :: es, coeffMul, d =>
    match parseAffineHelper e coeffMul d with
    | .error s => .error s
    | .ok (d1, c1) =>
      match parseAffineList es coeffMul d1 with
      | .error s => .error s
      | .ok (d2, c2) => .ok (d2, c1 + c2)
termination_by structural es => es

end

/-- `argReprMin`: the key whose `repr` is smallest; for plain string names
this is the smallest name in the `String` order. -/
def argReprMin (l : List String) : Option String :=
  l.foldl (fun acc x =>
    match acc with
    | none => some x
    | some y => if x < y then some x else some y) none

/-- `d[minKey]` (the key is known to be present; `0` is unreachable). -/
def lookupCoeff (k : String) (d : CoeffMap) : ℚ :=
  match d.find? (fun p => decide (p.1 = k)) with
  | some p => p.2
  | none => 0

/-- `canonicalizeDict`: negate all coefficients when the repr-smallest
key has a negative coefficient; the Bool records whether it flipped. -/
def canonicalizeDict (d : CoeffMap) : CoeffMap × Bool :=
  match argReprMin (d.map Prod.fst) with
  | none => (d, false)
  | some minKey =>
    if lookupCoeff minKey d ≥ 0 then (d, false)
    else (d.map (fun p => (p.1, -p.2)), true)

/-- `FLIP_OP`: `x op y iff y FLIP_OP[op] x` (partial map). -/
def flipOp (op : String) : Option String :=
  if op = ">" then some "<"
  else if op = "≥" then some "≤"
  else if op = "<" then some ">"
  else if op = "≤" then some "≥"
  else if op = "==" then some "=="
  else none

/-- `NEG_OP`: `x op y iff not (x NEG_OP[op] y)` (partial map; `==` absent). -/
def negOp (op : String) : Option String :=
  if op = ">" then some "≤"
  else if op = "≥" then some "<"
  else if op = "<" then some "≥"
  else if op = "≤" then some ">"
  else none

inductive IneqMode where
  | exact
  | strict
  | lenient
deriving DecidableEq

/-- The `CONVERT_OP` table (partial map; `KeyError` on missing entries). -/
def convertOpEntry (op : String) : IneqMode → Option String
  | .strict =>
    if op = "≤" then some "<"
    else if op = "<" then some "<"
    else if op = "≥" then some ">"
    else if op = ">" then some ">"
    else none
  | .lenient =>
    if op = "<" then some "≤"
    else if op = "≤" then some "≤"
    else if op = ">" then some "≥"
    else if op = "≥" then some "≥"
    else if op = "==" then some "=="
    else none
  | .exact => none

/-- `convertOp`. -/
def convertOp (op : String) (m : IneqMode) : Except String String :=
  match m with
  | .exact => .ok op
  | _ =>
    match convertOpEntry op m with
    | some o => .ok o
    | none => .error ("KeyError: " ++ op)

/-- `parseLinCmpExpr`. -/
def parseLinCmpExpr (e : Expr) (m : IneqMode) : Except String LinCmpExpr :=
  match e with
  | .linCmp l =>
    (match convertOp l.op m with
     | .error s => .error s
     | .ok newOp => if newOp = l.op then .ok l else .ok ⟨l.coeffMap, newOp, l.rhs⟩)
  | .binE op larg rarg =>
    if (flipOp op).isSome then
      match parseAffineHelper larg 1 [] with
      | .error s => .error s
      | .ok (d1, c1) =>
        match parseAffineHelper rarg (-1) d1 with
        | .error s => .error s
        | .ok (d2, c2) =>
          let rhs0 := -(c1 + c2)
          let coeffDict := d2.filter (fun p => !(decide (p.2 = 0)))
          let cf := canonicalizeDict coeffDict
          match convertOp op m with
          | .error s => .error s
          | .ok op1 =>
            if cf.2 then
              match flipOp op1 with
              | some op2 => .ok ⟨cf.1, op2, -rhs0⟩
              | none => .error ("KeyError: " ++ op1)
            else .ok ⟨cf.1, op1, rhs0⟩
    else .error "expected BinExpr with comparison operator"
  | _ => .error "expected BinExpr with comparison operator"

/-- `opToInterval`. -/
def opToInterval (op : String) (v : ℚ) : Interval :=
  if op = "<" ∨ op = "≤" then ⟨none, some v, false, decide (op = "≤")⟩
  else ⟨some v, none, decide (op = "≥"), false⟩

/-- `evalOp` (raises on an unknown operator). -/
def evalOp (larg : ℚ) (op : String) (rarg : ℚ) : Except String Bool :=
  if op = "<" then .ok (decide (larg < rarg))
  else if op = ">" then .ok (decide (larg > rarg))
  else if op = "≥" then .ok (decide (larg ≥ rarg))
  else if op = "≤" then .ok (decide (larg ≤ rarg))
  else if op = "==" then .ok (decide (larg = rarg))
  else .error ("invalid operator " ++ op)

/-! ### Constraint dictionaries (`linExpr.py`)

A `ConstrDict` maps a canonical coefficient combination (the
`frozenset(coeffDict.items())`, modelled as the sorted association list)
to an `Interval`. -/

abbrev ConstrDict := List (CoeffMap × Interval)

def dictGet (k : CoeffMap) (d : ConstrDict) : Option Interval :=
  match d.find? (fun p => decide (p.1 = k)) with
  | some p => some p.2
  | none => none

def dictSet (k : CoeffMap) (I : Interval) : ConstrDict → ConstrDict
  | [] => [(k, I)]
  | p :: rest => if p.1 = k then (k, I) :: rest else p :: dictSet k I rest

/-- `addConstrToDict`.  The Python parameter has type `Expr | bool`;
`Sum Bool Expr` models that union. -/
def addConstrToDict (expr : Sum Bool Expr) (b : Bool) (d : ConstrDict) (m : IneqMode) :
    Except String ConstrDict :=
  match expr with
  | .inl bv => if bv ≠ b then .error "Entering impossible scenario." else .ok d
  | .inr e =>
    match parseLinCmpExpr e m with
    | .error s => .error s
    | .ok linExpr =>
      if linExpr.coeffMap.isEmpty then
        match evalOp 0 linExpr.op linExpr.rhs with
        | .error s => .error s
        | .ok exprValue =>
          if exprValue ≠ b then .error "Entering impossible scenario." else .ok d
      else
        match
          (if b then .ok linExpr.op
           else
             match negOp linExpr.op with
             | some no => convertOp no m
             | none => .error ("KeyError: " ++ linExpr.op) : Except String String) with
        | .error s => .error s
        | .ok op =>
          let coeffs := linExpr.coeffMap
          let newInt := opToInterval op linExpr.rhs
          match dictGet coeffs d with
          | none => .ok (dictSet coeffs newInt d)
          | some oldInt =>
            let intersectInt := oldInt.intersect newInt
            if intersectInt.isEmpty then .error "Entering impossible scenario."
            else .ok (dictSet coeffs intersectInt d)

/-- `LinConstrTreeExplorer.decideIf`, as a function of the constraint
dictionary (the explorer's only state it reads and writes).  Returns
`(value, exploreOtherSide, parsed expression, updated dictionary)`. -/
def lcDecideIf (constraints : ConstrDict) (e : Expr) (m : IneqMode) :
    Except String (Bool × Bool × LinCmpExpr × ConstrDict) :=
  match parseLinCmpExpr e m with
  | .error s => .error s
  | .ok linExpr =>
    if linExpr.coeffMap.isEmpty then
      match evalOp 0 linExpr.op linExpr.rhs with
      | .error s => .error s
      | .ok exprValue => .ok (exprValue, false, linExpr, constraints)
    else
      match negOp linExpr.op with
      | none => .error ("KeyError: " ++ linExpr.op)
      | some negO =>
        match convertOp negO m with
        | .error s => .error s
        | .ok falseOp =>
          let coeffs := linExpr.coeffMap
          let falseInt := opToInterval falseOp linExpr.rhs
          let trueInt := opToInterval linExpr.op linExpr.rhs
          match dictGet coeffs constraints with
          | none => .ok (false, true, linExpr, dictSet coeffs falseInt constraints)
          | some oldInt =>
            if oldInt.isEmpty then .error "assert not oldInt.isEmpty()"
            else
              let falseInt2 := oldInt.intersect falseInt
              let trueInt2 := oldInt.intersect trueInt
              if falseInt2.isEmpty then
                .ok (true, false, linExpr, dictSet coeffs trueInt2 constraints)
              else .ok (false, !trueInt2.isEmpty, linExpr, dictSet coeffs falseInt2 constraints)

/-- The state of a `LinConstrTreeExplorer` (`debugFp` is output-only and
omitted). -/
structure LinConstrTreeExplorer where
  baseConstraintsDict : ConstrDict
  ineqMode : IneqMode
  constraints : ConstrDict
  storeLeafConstr : Bool
deriving DecidableEq

namespace LinConstrTreeExplorer

/-- `LinConstrTreeExplorer.__init__`: seed the base dict from the base
constraint list, then copy it into the working dict. -/
def init (baseConstraintsList : List (Sum Bool Expr)) (m : IneqMode) (store : Bool) :
    Except String LinConstrTreeExplorer := do
  let base ← baseConstraintsList.foldlM (fun d e => addConstrToDict e true d m) ([] : ConstrDict)
  .ok ⟨base, m, base, store⟩

/-- `LinConstrTreeExplorer.noteIf`. -/
def noteIf (s : LinConstrTreeExplorer) (e : Expr) (b : Bool) :
    Except String LinConstrTreeExplorer :=
  match addConstrToDict (.inr e) b s.constraints s.ineqMode with
  | .error msg => .error msg
  | .ok c => .ok ⟨s.baseConstraintsDict, s.ineqMode, c, s.storeLeafConstr⟩

/-- `LinConstrTreeExplorer.decideIf`. -/
def decideIf (s : LinConstrTreeExplorer) (e : Expr) :
    Except String (Bool × Bool × LinCmpExpr × LinConstrTreeExplorer) :=
  match lcDecideIf s.constraints e s.ineqMode with
  | .error msg => .error msg
  | .ok r => .ok (r.1, r.2.1, r.2.2.1, ⟨s.baseConstraintsDict, s.ineqMode, r.2.2.2, s.storeLeafConstr⟩)

/-- `LinConstrTreeExplorer.noteReturn`: returns the optional snapshot and
resets the working dict to a copy of the base dict. -/
def noteReturn (s : LinConstrTreeExplorer) : Option ConstrDict × LinConstrTreeExplorer :=
  (if s.storeLeafConstr then some s.constraints else none,
   ⟨s.baseConstraintsDict, s.ineqMode, s.baseConstraintsDict, s.storeLeafConstr⟩)

end LinConstrTreeExplorer

/-! ### `CachedTreeExplorer` (`treeExplorer.py`) -/

structure CachedTreeExplorer where
  cache : List (EKey × Bool)

def cacheGet (k : EKey) (c : List (EKey × Bool)) : Option Bool :=
  match c.find? (fun p => EKey.beq p.1 k) with
  | some p => some p.2
  | none => none

def cacheSet (k : EKey) (b : Bool) : List (EKey × Bool) → List (EKey × Bool)
  | [] => [(k, b)]
  | p :: rest => if EKey.beq p.1 k then (k, b) :: rest else p :: cacheSet k b rest

namespace CachedTreeExplorer

/-- `CachedTreeExplorer.noteIf`: `self.cache[expr.key()] = b`. -/
def noteIf (s : CachedTreeExplorer) (e : Expr) (b : Bool) : CachedTreeExplorer :=
  ⟨cacheSet e.key b s.cache⟩

/-- `CachedTreeExplorer.decideIf`. -/
def decideIf (s : CachedTreeExplorer) (e : Expr) :
    (Bool × Bool × Option Expr) × CachedTreeExplorer :=
  match cacheGet e.key s.cache with
  | some b => ((b, false, none), s)
  | none => ((false, true, none), ⟨cacheSet e.key false s.cache⟩)

/-- `CachedTreeExplorer.noteReturn`: `self.cache.clear()`. -/
def noteReturn (_s : CachedTreeExplorer) : CachedTreeExplorer := ⟨[]⟩

end CachedTreeExplorer

/-! ### Semantics of affine expressions

`evalAffine` is the mathematical value of an affine expression under an
assignment of rationals to variable names; it is defined on exactly the
shapes `parseAffineHelper` accepts.  `evalCmpB` is the truth value of a
comparison expression. -/

mutual

def evalAffine : (String → ℚ) → Expr → Option ℚ
  | σ, .var n => some (σ n)
  | _, .const c => some c
  | σ, .unE op a =>
    if op = "+" then evalAffine σ a
    else if op = "-" then (evalAffine σ a).map (fun v => -v)
    else none
  | σ, .binE op l r =>
    if op = "+" then do
      let vl ← evalAffine σ l
      let vr ← evalAffine σ r
      some (vl + vr)
    else if op = "-" then do
      let vl ← evalAffine σ l
      let vr ← evalAffine σ r
      some (vl - vr)
    else if op = "*" then do
      let vl ← evalAffine σ l
      let vr ← evalAffine σ r
      some (vl * vr)
    else none
  | σ, .aggE op args =>
    if op = "+" then evalAffineList σ args else none
  | _, .linCmp _ => none
termination_by structural σ e => e

def evalAffineList : (String → ℚ) → List Expr → Option ℚ
  | _, [] => some 0
  | σ, e :: es => do
    let v ← evalAffine σ e
    let vs ← evalAffineList σ es
    some (v + vs)
termination_by structural σ es => es

end

/-- Truth value of `larg op rarg` for the five comparison operators. -/
def evalOpB (larg : ℚ) (op : String) (rarg : ℚ) : Option Bool :=
  if op = "<" then some (decide (larg < rarg))
  else if op = ">" then some (decide (larg > rarg))
  else if op = "≥" then some (decide (larg ≥ rarg))
  else if op = "≤" then some (decide (larg ≤ rarg))
  else if op = "==" then some (decide (larg = rarg))
  else none

/-- Dot product of a coefficient list with an assignment. -/
def lindot (σ : String → ℚ) (d : CoeffMap) : ℚ :=
  (d.map (fun p => p.2 * σ p.1)).sum

/-- Truth value of a comparison expression under an assignment. -/
def evalCmpB (σ : String → ℚ) : Expr → Option Bool
  | .binE op l r =>
    if (flipOp op).isSome then do
      let vl ← evalAffine σ l
      let vr ← evalAffine σ r
      evalOpB vl op vr
    else none
  | .linCmp lc => evalOpB (lindot σ lc.coeffMap) lc.op lc.rhs
  | _ => none

/-- Truth value of an `Expr | bool` constraint under an assignment. -/
def constrEvalB (σ : String → ℚ) : Sum Bool Expr → Option Bool
  | .inl bv => some bv
  | .inr e => evalCmpB σ e

/-- `σ` satisfies a constraint dictionary: the dot product of every stored
coefficient combination lies in its stored interval. -/
def satisfiesDict (σ : String → ℚ) (d : ConstrDict) : Prop :=
  ∀ p ∈ d, p.2.contains (lindot σ p.1) = true

/-! ### Commitment sequences for the domination explorer

A run of the explorer along one path is a sequence of events: `note`
events are `noteIf` calls (and the pre-seeded base constraints, which are
`note _ true` events), `decide` events are `decideIf` calls.  `runLCEvents`
replays the events on a dictionary and also returns the list of committed
constraints `(constraint, committed value)` — for a `decide` event the
committed value is the value the explorer returned. -/

inductive LCEvent where
  | note (c : Sum Bool Expr) (b : Bool)
  | decide (e : Expr)

def runLCEvents (m : IneqMode) :
    ConstrDict → List LCEvent → Except String (ConstrDict × List (Sum Bool Expr × Bool))
  | d, [] => .ok (d, [])
  | d, .note c b :: es =>
    match addConstrToDict c b d m with
    | .error s => .error s
    | .ok d1 =>
      match runLCEvents m d1 es with
      | .error s => .error s
      | .ok (d2, l) => .ok (d2, (c, b) :: l)
  | d, .decide e :: es =>
    match lcDecideIf d e m with
    | .error s => .error s
    | .ok r =>
      match runLCEvents m r.2.2.2 es with
      | .error s => .error s
      | .ok (d2, l) => .ok (d2, (.inr e, r.1) :: l)

/-- Boolean form of "σ makes every committed constraint come out with its
committed value". -/
def commitsHoldB (σ : String → ℚ) (l : List (Sum Bool Expr × Bool)) : Bool :=
  l.all (fun p => constrEvalB σ p.1 == some p.2)

/-- A `note` event is inequality-only: a successful parse (at the given
mode) gives a nonempty coefficient map only with operator `<`, `>`, `≤`
or `≥`.  (Equality constraints are mishandled by `opToInterval`, see the
counterexample.) -/
def noteOkB (m : IneqMode) : LCEvent → Bool
  | .note (.inr e) _ =>
    match parseLinCmpExpr e m with
    | .ok lin =>
      lin.coeffMap.isEmpty ||
        (decide (lin.op = "<") || decide (lin.op = ">") ||
         decide (lin.op = "≤") || decide (lin.op = "≥"))
    | .error _ => true
  | _ => true

def eventsOkB (m : IneqMode) (es : List LCEvent) : Bool := es.all (noteOkB m)

/-! ### Lemmas about the constraint machinery -/

theorem convertOp_exact (op : String) : convertOp op IneqMode.exact = .ok op := rfl

theorem dictGet_mem {k : CoeffMap} {d : ConstrDict} {I : Interval}
    (h : dictGet k d = some I) : (k, I) ∈ d := by
  unfold dictGet at h
  cases hf : List.find? (fun p => decide (p.1 = k)) d with
  | none => rw [hf] at h; exact absurd h (by simp)
  | some p =>
    rw [hf] at h
    injection h with h
    have hm := List.mem_of_find?_eq_some hf
    have hp := List.find?_some hf
    simp only [decide_eq_true_eq] at hp
    cases p with
    | mk a b =>
      simp only at hp h
      subst hp
      subst h
      exact hm

theorem mem_dictSet {k : CoeffMap} {I : Interval} {d : ConstrDict} {p : CoeffMap × Interval}
    (h : p ∈ dictSet k I d) : p = (k, I) ∨ p ∈ d := by
  induction d with
  | nil => simp [dictSet] at h; simp [h]
  | cons q rest ih =>
    simp only [dictSet] at h
    by_cases hk : q.1 = k
    · rw [if_pos hk] at h
      rcases List.mem_cons.mp h with h | h
      · exact Or.inl h
      · exact Or.inr (List.mem_cons.mpr (Or.inr h))
    · rw [if_neg hk] at h
      rcases List.mem_cons.mp h with h | h
      · exact Or.inr (List.mem_cons.mpr (Or.inl h))
      · rcases ih h with h | h
        · exact Or.inl h
        · exact Or.inr (List.mem_cons.mpr (Or.inr h))

theorem satisfiesDict_dictSet {σ : String → ℚ} {d : ConstrDict} {k : CoeffMap} {I : Interval}
    (hd : satisfiesDict σ d) (hI : I.contains (lindot σ k) = true) :
    satisfiesDict σ (dictSet k I d) := by
  intro p hp
  rcases mem_dictSet hp with h | h
  · subst h; exact hI
  · exact hd p h

theorem lindot_nil (σ : String → ℚ) : lindot σ [] = 0 := rfl

theorem lindot_cons (σ : String → ℚ) (p : String × ℚ) (d : CoeffMap) :
    lindot σ (p :: d) = p.2 * σ p.1 + lindot σ d := rfl

theorem lindot_coeffAdd (σ : String → ℚ) (n : String) (c : ℚ) (d : CoeffMap) :
    lindot σ (coeffAdd n c d) = lindot σ d + c * σ n := by
  induction d with
  | nil => simp [coeffAdd, lindot]
  | cons q rest ih =>
    simp only [coeffAdd]
    by_cases h1 : n = q.1
    · rw [if_pos h1]
      simp only [lindot_cons]
      rw [h1]
      ring
    · rw [if_neg h1]
      by_cases h2 : n < q.1
      · rw [if_pos h2]
        simp only [lindot_cons]
        ring
      · rw [if_neg h2]
        simp only [lindot_cons, ih]
        ring

theorem lindot_filter_ne_zero (σ : String → ℚ) (d : CoeffMap) :
    lindot σ (d.filter (fun p => !(decide (p.2 = 0)))) = lindot σ d := by
  induction d with
  | nil => rfl
  | cons q rest ih =>
    by_cases h : q.2 = 0 <;> simp [List.filter_cons, h, lindot_cons, ih]

theorem lindot_negMap (σ : String → ℚ) (d : CoeffMap) :
    lindot σ (d.map (fun p => (p.1, -p.2))) = -(lindot σ d) := by
  induction d with
  | nil => simp [lindot]
  | cons q rest ih =>
    simp only [List.map_cons, lindot_cons, ih]
    ring

/-- `evalOp` and `evalOpB` agree (as `Except` vs `Option`). -/
theorem evalOp_evalOpB (x v : ℚ) (op : String) (b : Bool) :
    evalOp x op v = .ok b ↔ evalOpB x op v = some b := by
  unfold evalOp evalOpB
  by_cases h1 : op = "<"
  · simp [h1]
  · by_cases h2 : op = ">"
    · simp [h1, h2]
    · by_cases h3 : op = "≥"
      · simp [h1, h2, h3]
      · by_cases h4 : op = "≤"
        · simp [h1, h2, h3, h4]
        · by_cases h5 : op = "=="
          · simp [h1, h2, h3, h4, h5]
          · simp [h1, h2, h3, h4, h5]

/-- For the four inequality operators, `opToInterval` carves out exactly
the satisfying set. -/
theorem opToInterval_contains (op : String) (v x : ℚ)
    (hop : op = "<" ∨ op = ">" ∨ op = "≤" ∨ op = "≥") :
    evalOpB x op v = some ((opToInterval op v).contains x) := by
  rcases hop with h | h | h | h <;> subst h <;>
    simp only [evalOpB, opToInterval, Interval.contains, reduceIte] <;>
    rcases lt_trichotomy x v with h | h | h
  · simp [h]
  · simp [h, not_lt.mpr (le_of_eq h)]
  · simp [not_lt.mpr (le_of_lt h), not_le.mpr h, ne_of_gt h]
  · simp [h, not_lt.mpr (le_of_lt h), not_le.mpr h]
  · simp [h, not_lt.mpr (le_of_eq h.symm)]
  · simp [h, le_of_lt h]
  · simp [h, le_of_lt h]
  · simp [h, le_of_eq h, not_lt.mpr (le_of_eq h)]
  · simp [not_lt.mpr (le_of_lt h), not_le.mpr h]
  · simp [not_lt.mpr (le_of_lt h), not_le.mpr h, le_of_lt h]
  · simp [h, le_of_eq h.symm, not_lt.mpr (le_of_eq h.symm), ge_of_eq h]
  · simp [h, le_of_lt h, not_le.mpr h, not_lt.mpr (le_of_lt h)]

theorem evalOpB_lt (x v : ℚ) : evalOpB x "<" v = some (decide (x < v)) := by
  unfold evalOpB
  rw [if_pos rfl]

theorem evalOpB_gt (x v : ℚ) : evalOpB x ">" v = some (decide (v < x)) := by
  unfold evalOpB
  rw [if_neg (by decide), if_pos rfl]

theorem evalOpB_ge (x v : ℚ) : evalOpB x "≥" v = some (decide (v ≤ x)) := by
  unfold evalOpB
  rw [if_neg (by decide), if_neg (by decide), if_pos rfl]

theorem evalOpB_le (x v : ℚ) : evalOpB x "≤" v = some (decide (x ≤ v)) := by
  unfold evalOpB
  rw [if_neg (by decide), if_neg (by decide), if_neg (by decide), if_pos rfl]

theorem evalOpB_eqOp (x v : ℚ) : evalOpB x "==" v = some (decide (x = v)) := by
  unfold evalOpB
  rw [if_neg (by decide), if_neg (by decide), if_neg (by decide), if_neg (by decide), if_pos rfl]

/-- The range of `negOp` is among the four inequality operators. -/
theorem negOp_cases {op no : String} (h : negOp op = some no) :
    (op = ">" ∧ no = "≤") ∨ (op = "≥" ∧ no = "<") ∨ (op = "<" ∧ no = "≥") ∨
      (op = "≤" ∧ no = ">") := by
  unfold negOp at h
  by_cases h1 : op = ">"
  · rw [if_pos h1] at h; injection h with h; exact Or.inl ⟨h1, h.symm⟩
  · rw [if_neg h1] at h
    by_cases h2 : op = "≥"
    · rw [if_pos h2] at h; injection h with h; exact Or.inr (Or.inl ⟨h2, h.symm⟩)
    · rw [if_neg h2] at h
      by_cases h3 : op = "<"
      · rw [if_pos h3] at h; injection h with h; exact Or.inr (Or.inr (Or.inl ⟨h3, h.symm⟩))
      · rw [if_neg h3] at h
        by_cases h4 : op = "≤"
        · rw [if_pos h4] at h; injection h with h
          exact Or.inr (Or.inr (Or.inr ⟨h4, h.symm⟩))
        · rw [if_neg h4] at h; exact absurd h (by simp)

/-- `NEG_OP` is the exact Boolean negation. -/
theorem evalOpB_negOp {op no : String} (h : negOp op = some no) (x v : ℚ) (b : Bool)
    (hb : evalOpB x op v = some b) : evalOpB x no v = some (!b) := by
  rcases negOp_cases h with ⟨h1, h2⟩ | ⟨h1, h2⟩ | ⟨h1, h2⟩ | ⟨h1, h2⟩ <;> subst h1 <;> subst h2
  · rw [evalOpB_gt] at hb
    injection hb with hb
    subst hb
    rw [evalOpB_le, Option.some.injEq, ← decide_not]
    exact decide_eq_decide.mpr not_lt.symm
  · rw [evalOpB_ge] at hb
    injection hb with hb
    subst hb
    rw [evalOpB_lt, Option.some.injEq, ← decide_not]
    exact decide_eq_decide.mpr not_le.symm
  · rw [evalOpB_lt] at hb
    injection hb with hb
    subst hb
    rw [evalOpB_ge, Option.some.injEq, ← decide_not]
    exact decide_eq_decide.mpr not_lt.symm
  · rw [evalOpB_le] at hb
    injection hb with hb
    subst hb
    rw [evalOpB_gt, Option.some.injEq, ← decide_not]
    exact decide_eq_decide.mpr not_le.symm

/-- `FLIP_OP` is exact: `x op y iff y FLIP_OP[op] x`, stated as negation
of both sides. -/
theorem flipOp_cases {op fo : String} (h : flipOp op = some fo) :
    (op = ">" ∧ fo = "<") ∨ (op = "≥" ∧ fo = "≤") ∨ (op = "<" ∧ fo = ">") ∨
      (op = "≤" ∧ fo = "≥") ∨ (op = "==" ∧ fo = "==") := by
  unfold flipOp at h
  by_cases h1 : op = ">"
  · rw [if_pos h1] at h; injection h with h; exact Or.inl ⟨h1, h.symm⟩
  · rw [if_neg h1] at h
    by_cases h2 : op = "≥"
    · rw [if_pos h2] at h; injection h with h; exact Or.inr (Or.inl ⟨h2, h.symm⟩)
    · rw [if_neg h2] at h
      by_cases h3 : op = "<"
      · rw [if_pos h3] at h; injection h with h
        exact Or.inr (Or.inr (Or.inl ⟨h3, h.symm⟩))
      · rw [if_neg h3] at h
        by_cases h4 : op = "≤"
        · rw [if_pos h4] at h; injection h with h
          exact Or.inr (Or.inr (Or.inr (Or.inl ⟨h4, h.symm⟩)))
        · rw [if_neg h4] at h
          by_cases h5 : op = "=="
          · rw [if_pos h5] at h; injection h with h
            exact Or.inr (Or.inr (Or.inr (Or.inr ⟨h5, h.symm⟩)))
          · rw [if_neg h5] at h; exact absurd h (by simp)

theorem evalOpB_flipOp {op fo : String} (h : flipOp op = some fo) (x v : ℚ) :
    evalOpB (-x) fo (-v) = evalOpB x op v := by
  rcases flipOp_cases h with ⟨h1, h2⟩ | ⟨h1, h2⟩ | ⟨h1, h2⟩ | ⟨h1, h2⟩ | ⟨h1, h2⟩ <;>
    subst h1 <;> subst h2
  · rw [evalOpB_lt, evalOpB_gt, Option.some.injEq, decide_eq_decide]
    exact neg_lt_neg_iff
  · rw [evalOpB_le, evalOpB_ge, Option.some.injEq, decide_eq_decide]
    exact neg_le_neg_iff
  · rw [evalOpB_gt, evalOpB_lt, Option.some.injEq, decide_eq_decide]
    exact neg_lt_neg_iff
  · rw [evalOpB_ge, evalOpB_le, Option.some.injEq, decide_eq_decide]
    exact neg_le_neg_iff
  · rw [evalOpB_eqOp, evalOpB_eqOp, Option.some.injEq, decide_eq_decide]
    constructor
    · intro hh; have := neg_inj.mp hh; linarith
    · intro hh; rw [hh]

/-- Moving everything to one side: `x op y` iff `(x - y + r) op r`. -/
theorem evalOpB_shift (op : String) (x y r : ℚ) :
    evalOpB (x - y + r) op r = evalOpB x op y := by
  by_cases h1 : op = "<"
  · subst h1
    rw [evalOpB_lt, evalOpB_lt, Option.some.injEq, decide_eq_decide]
    constructor <;> intro h <;> linarith
  · by_cases h2 : op = ">"
    · subst h2
      rw [evalOpB_gt, evalOpB_gt, Option.some.injEq, decide_eq_decide]
      constructor <;> intro h <;> linarith
    · by_cases h3 : op = "≥"
      · subst h3
        rw [evalOpB_ge, evalOpB_ge, Option.some.injEq, decide_eq_decide]
        constructor <;> intro h <;> linarith
      · by_cases h4 : op = "≤"
        · subst h4
          rw [evalOpB_le, evalOpB_le, Option.some.injEq, decide_eq_decide]
          constructor <;> intro h <;> linarith
        · by_cases h5 : op = "=="
          · subst h5
            rw [evalOpB_eqOp, evalOpB_eqOp, Option.some.injEq, decide_eq_decide]
            constructor <;> intro h <;> linarith
          · unfold evalOpB
            rw [if_neg h1, if_neg h2, if_neg h3, if_neg h4, if_neg h5,
              if_neg h1, if_neg h2, if_neg h3, if_neg h4, if_neg h5]

/-! ### Soundness of the affine parser -/

theorem evalAffine_unE_add (σ : String → ℚ) (a : Expr) :
    evalAffine σ (.unE "+" a) = evalAffine σ a := by
  conv_lhs => rw [evalAffine]
  rw [if_pos rfl]

theorem evalAffine_unE_neg (σ : String → ℚ) (a : Expr) :
    evalAffine σ (.unE "-" a) = (evalAffine σ a).map (fun v => -v) := by
  conv_lhs => rw [evalAffine]
  rw [if_neg (by decide : ¬("-" : String) = "+"), if_pos rfl]

theorem evalAffine_binE_add {σ : String → ℚ} {l r : Expr} {vl vr : ℚ}
    (hl : evalAffine σ l = some vl) (hr : evalAffine σ r = some vr) :
    evalAffine σ (.binE "+" l r) = some (vl + vr) := by
  conv_lhs => rw [evalAffine]
  rw [if_pos rfl, hl, hr]
  rfl

theorem evalAffine_binE_sub {σ : String → ℚ} {l r : Expr} {vl vr : ℚ}
    (hl : evalAffine σ l = some vl) (hr : evalAffine σ r = some vr) :
    evalAffine σ (.binE "-" l r) = some (vl - vr) := by
  conv_lhs => rw [evalAffine]
  rw [if_neg (by decide : ¬("-" : String) = "+"), if_pos rfl, hl, hr]
  rfl

theorem evalAffine_binE_mul {σ : String → ℚ} {l r : Expr} {vl vr : ℚ}
    (hl : evalAffine σ l = some vl) (hr : evalAffine σ r = some vr) :
    evalAffine σ (.binE "*" l r) = some (vl * vr) := by
  conv_lhs => rw [evalAffine]
  rw [if_neg (by decide : ¬("*" : String) = "+"), if_neg (by decide : ¬("*" : String) = "-"),
    if_pos rfl, hl, hr]
  rfl

theorem evalAffine_aggE_add (σ : String → ℚ) (args : List Expr) :
    evalAffine σ (.aggE "+" args) = evalAffineList σ args := by
  conv_lhs => rw [evalAffine]
  rw [if_pos rfl]

theorem evalAffineList_cons {σ : String → ℚ} {e : Expr} {es : List Expr} {v vs : ℚ}
    (hv : evalAffine σ e = some v) (hvs : evalAffineList σ es = some vs) :
    evalAffineList σ (e :: es) = some (v + vs) := by
  conv_lhs => rw [evalAffineList]
  rw [hv, hvs]
  rfl

mutual

theorem parseAffineHelper_sound (σ : String → ℚ) (e : Expr) (mu : ℚ) (d d' : CoeffMap) (c : ℚ)
    (h : parseAffineHelper e mu d = .ok (d', c)) :
    ∃ v, evalAffine σ e = some v ∧ lindot σ d' + c = lindot σ d + mu * v := by
  cases e with
  | var name =>
    simp only [parseAffineHelper, Except.ok.injEq, Prod.mk.injEq] at h
    obtain ⟨h1, h2⟩ := h
    refine ⟨σ name, rfl, ?_⟩
    rw [← h1, ← h2, lindot_coeffAdd]
    ring
  | const x =>
    simp only [parseAffineHelper, Except.ok.injEq, Prod.mk.injEq] at h
    obtain ⟨h1, h2⟩ := h
    refine ⟨x, rfl, ?_⟩
    rw [← h1, ← h2]
    ring
  | unE op a =>
    simp only [parseAffineHelper] at h
    by_cases hop : op = "+"
    · rw [if_pos hop] at h
      obtain ⟨v, hv, heq⟩ := parseAffineHelper_sound σ a mu d d' c h
      subst hop
      exact ⟨v, by rw [evalAffine_unE_add, hv], heq⟩
    · rw [if_neg hop] at h
      by_cases hop2 : op = "-"
      · rw [if_pos hop2] at h
        obtain ⟨v, hv, heq⟩ := parseAffineHelper_sound σ a (-mu) d d' c h
        subst hop2
        refine ⟨-v, by rw [evalAffine_unE_neg, hv]; rfl, ?_⟩
        rw [heq]
        ring
      · rw [if_neg hop2] at h
        exact absurd h (by simp)
  | binE op l r =>
    simp only [parseAffineHelper] at h
    by_cases hop : op = "+"
    · rw [if_pos hop] at h
      subst hop
      split at h
      · exact absurd h (by simp)
      · rename_i d1 c1 hl
        split at h
        · exact absurd h (by simp)
        · rename_i d2 c2 hr
          simp only [Except.ok.injEq, Prod.mk.injEq] at h
          obtain ⟨h1, h2⟩ := h
          obtain ⟨vl, hvl, heql⟩ := parseAffineHelper_sound σ l mu d d1 c1 hl
          obtain ⟨vr, hvr, heqr⟩ := parseAffineHelper_sound σ r mu d1 d2 c2 hr
          refine ⟨vl + vr, evalAffine_binE_add hvl hvr, ?_⟩
          rw [← h1, ← h2]
          linarith [heql, heqr]
    · rw [if_neg hop] at h
      by_cases hop2 : op = "-"
      · rw [if_pos hop2] at h
        subst hop2
        split at h
        · exact absurd h (by simp)
        · rename_i d1 c1 hl
          split at h
          · exact absurd h (by simp)
          · rename_i d2 c2 hr
            simp only [Except.ok.injEq, Prod.mk.injEq] at h
            obtain ⟨h1, h2⟩ := h
            obtain ⟨vl, hvl, heql⟩ := parseAffineHelper_sound σ l mu d d1 c1 hl
            obtain ⟨vr, hvr, heqr⟩ := parseAffineHelper_sound σ r (-mu) d1 d2 c2 hr
            refine ⟨vl - vr, evalAffine_binE_sub hvl hvr, ?_⟩
            rw [← h1, ← h2]
            linarith [heql, heqr]
      · rw [if_neg hop2] at h
        by_cases hop3 : op = "*"
        · rw [if_pos hop3] at h
          subst hop3
          split at h
          · exact absurd h (by simp)
          · -- l = .const cl, r not a const
            obtain ⟨v, hv, heq⟩ := parseAffineHelper_sound σ r _ d d' c h
            refine ⟨_ * v, evalAffine_binE_mul rfl hv, ?_⟩
            rw [heq]
            ring
          · -- r = .const cr, l not a const
            obtain ⟨v, hv, heq⟩ := parseAffineHelper_sound σ l _ d d' c h
            refine ⟨v * _, evalAffine_binE_mul hv rfl, ?_⟩
            rw [heq]
            ring
          · exact absurd h (by simp)
        · rw [if_neg hop3] at h
          exact absurd h (by simp)
  | aggE op args =>
    simp only [parseAffineHelper] at h
    by_cases hop : op = "+"
    · rw [if_pos hop] at h
      obtain ⟨v, hv, heq⟩ := parseAffineList_sound σ args mu d d' c h
      subst hop
      exact ⟨v, by rw [evalAffine_aggE_add, hv], heq⟩
    · rw [if_neg hop] at h
      exact absurd h (by simp)
  | linCmp lc =>
    exact absurd h (by simp [parseAffineHelper])

theorem parseAffineList_sound (σ : String → ℚ) (es : List Expr) (mu : ℚ) (d d' : CoeffMap)
    (c : ℚ) (h : parseAffineList es mu d = .ok (d', c)) :
    ∃ v, evalAffineList σ es = some v ∧ lindot σ d' + c = lindot σ d + mu * v := by
  cases es with
  | nil =>
    simp only [parseAffineList, Except.ok.injEq, Prod.mk.injEq] at h
    obtain ⟨h1, h2⟩ := h
    refine ⟨0, rfl, ?_⟩
    rw [← h1, ← h2]
    ring
  | cons e es =>
    simp only [parseAffineList] at h
    split at h
    · exact absurd h (by simp)
    · rename_i d1 c1 he
      split at h
      · exact absurd h (by simp)
      · rename_i d2 c2 hes
        simp only [Except.ok.injEq, Prod.mk.injEq] at h
        obtain ⟨h1, h2⟩ := h
        obtain ⟨v, hv, heq⟩ := parseAffineHelper_sound σ e mu d d1 c1 he
        obtain ⟨vs, hvs, heqs⟩ := parseAffineList_sound σ es mu d1 d2 c2 hes
        refine ⟨v + vs, evalAffineList_cons hv hvs, ?_⟩
        rw [← h1, ← h2]
        linarith [heq, heqs]

end

theorem canonicalizeDict_false {d : CoeffMap} (h : (canonicalizeDict d).2 = false) :
    (canonicalizeDict d).1 = d := by
  rcases hcd : canonicalizeDict d with ⟨d', fl⟩
  rw [hcd] at h
  simp only at h
  subst h
  simp only
  unfold canonicalizeDict at hcd
  split at hcd
  · injection hcd with h1 h2
    exact h1.symm
  · split at hcd
    · injection hcd with h1 h2
      exact h1.symm
    · injection hcd with h1 h2
      exact absurd h2 (by simp)

theorem canonicalizeDict_true {d : CoeffMap} (h : (canonicalizeDict d).2 = true) :
    (canonicalizeDict d).1 = d.map (fun p => (p.1, -p.2)) := by
  rcases hcd : canonicalizeDict d with ⟨d', fl⟩
  rw [hcd] at h
  simp only at h
  subst h
  simp only
  unfold canonicalizeDict at hcd
  split at hcd
  · injection hcd with h1 h2
    exact absurd h2 (by simp)
  · split at hcd
    · injection hcd with h1 h2
      exact absurd h2 (by simp)
    · injection hcd with h1 h2
      exact h1.symm

theorem evalCmpB_binE {σ : String → ℚ} {l r : Expr} {vl vr : ℚ} {op : String}
    (hflip : (flipOp op).isSome = true)
    (hvl : evalAffine σ l = some vl) (hvr : evalAffine σ r = some vr) :
    evalCmpB σ (.binE op l r) = evalOpB vl op vr := by
  simp only [evalCmpB]
  rw [if_pos hflip, hvl, hvr]
  rfl

/-- Parsing a comparison (in exact mode) preserves its truth value: the
canonical form holds under `σ` exactly when the original comparison does. -/
theorem parseLinCmpExpr_sound (σ : String → ℚ) (e : Expr) (lin : LinCmpExpr)
    (h : parseLinCmpExpr e IneqMode.exact = .ok lin) :
    evalCmpB σ e = evalOpB (lindot σ lin.coeffMap) lin.op lin.rhs := by
  cases e with
  | linCmp l =>
    simp only [parseLinCmpExpr, convertOp, eq_self_iff_true, if_true, Except.ok.injEq] at h
    subst h
    rfl
  | binE op larg rarg =>
    simp only [parseLinCmpExpr] at h
    by_cases hflip : (flipOp op).isSome
    · rw [if_pos hflip] at h
      split at h
      · exact absurd h (by simp)
      · rename_i d1 c1 hl
        split at h
        · exact absurd h (by simp)
        · rename_i d2 c2 hr
          rw [convertOp_exact] at h
          obtain ⟨vl, hvl, heql⟩ := parseAffineHelper_sound σ larg 1 [] d1 c1 hl
          obtain ⟨vr, hvr, heqr⟩ := parseAffineHelper_sound σ rarg (-1) d1 d2 c2 hr
          rw [lindot_nil] at heql
          have hd2 : lindot σ d2 = vl - vr + -(c1 + c2) := by linarith [heql, heqr]
          rw [evalCmpB_binE hflip hvl hvr]
          simp only at h
          split at h
          · -- flipped
            rename_i hcf
            split at h
            · rename_i op2 hop2
              injection h with h
              subst h
              simp only
              rw [canonicalizeDict_true hcf, lindot_negMap, lindot_filter_ne_zero, hd2]
              rw [evalOpB_flipOp hop2, evalOpB_shift]
            · exact absurd h (by simp)
          · -- not flipped
            rename_i hcf
            injection h with h
            subst h
            simp only
            rw [canonicalizeDict_false (Bool.not_eq_true _ ▸ hcf), lindot_filter_ne_zero, hd2,
              evalOpB_shift]
    · rw [if_neg hflip] at h
      exact absurd h (by simp)
  | var n => exact absurd h (by simp [parseLinCmpExpr])
  | const v => exact absurd h (by simp [parseLinCmpExpr])
  | unE o a => exact absurd h (by simp [parseLinCmpExpr])
  | aggE o as => exact absurd h (by simp [parseLinCmpExpr])

/-! ### Soundness of constraint commitment and domination -/

theorem isEmpty_coeffMap_eq_nil {l : List (String × ℚ)} (h : l.isEmpty = true) : l = [] := by
  cases l with
  | nil => rfl
  | cons a as => simp [List.isEmpty] at h

/-- Committing a constraint that `σ` satisfies keeps `σ` inside the
dictionary (exact mode; `note` constraints restricted to inequalities). -/
theorem addConstr_sound (σ : String → ℚ) {c : Sum Bool Expr} {b : Bool} {d d' : ConstrDict}
    (hok : noteOkB IneqMode.exact (.note c b) = true)
    (h : addConstrToDict c b d IneqMode.exact = .ok d')
    (hsat : satisfiesDict σ d)
    (hc : constrEvalB σ c = some b) :
    satisfiesDict σ d' := by
  cases c with
  | inl bv =>
    simp only [addConstrToDict] at h
    split at h
    · exact absurd h (by simp)
    · injection h with h
      subst h
      exact hsat
  | inr e =>
    simp only [addConstrToDict] at h
    split at h
    · exact absurd h (by simp)
    · rename_i lin hparse
      have hcmp : evalOpB (lindot σ lin.coeffMap) lin.op lin.rhs = some b := by
        rw [← parseLinCmpExpr_sound σ e lin hparse]
        exact hc
      by_cases hemp : lin.coeffMap.isEmpty = true
      · rw [if_pos hemp] at h
        split at h
        · exact absurd h (by simp)
        · split at h
          · exact absurd h (by simp)
          · injection h with h
            subst h
            exact hsat
      · rw [if_neg hemp] at h
        split at h
        · exact absurd h (by simp)
        · rename_i op hop
          have hx : (op = "<" ∨ op = ">" ∨ op = "≤" ∨ op = "≥") ∧
              evalOpB (lindot σ lin.coeffMap) op lin.rhs = some true := by
            cases b with
            | true =>
              rw [if_pos rfl] at hop
              injection hop with hop
              subst hop
              refine ⟨?_, hcmp⟩
              have hemp' : lin.coeffMap.isEmpty = false := Bool.eq_false_iff.mpr hemp
              simp only [noteOkB, hparse, hemp', Bool.false_or, Bool.or_eq_true,
                decide_eq_true_eq] at hok
              tauto
            | false =>
              rw [if_neg (by simp)] at hop
              split at hop
              · rename_i no hno
                rw [convertOp_exact] at hop
                injection hop with hop
                subst hop
                refine ⟨?_, evalOpB_negOp hno _ _ _ hcmp⟩
                rcases negOp_cases hno with ⟨_, h2⟩ | ⟨_, h2⟩ | ⟨_, h2⟩ | ⟨_, h2⟩ <;>
                  rw [h2] <;> simp
              · exact absurd hop (by simp)
          obtain ⟨hops, htrue⟩ := hx
          have hcont : (opToInterval op lin.rhs).contains (lindot σ lin.coeffMap) = true := by
            have h2 := opToInterval_contains op lin.rhs (lindot σ lin.coeffMap) hops
            rw [htrue] at h2
            injection h2 with h2
            exact h2.symm
          split at h
          · injection h with h
            subst h
            exact satisfiesDict_dictSet hsat hcont
          · rename_i oldInt hget
            split at h
            · exact absurd h (by simp)
            · injection h with h
              subst h
              have hold : oldInt.contains (lindot σ lin.coeffMap) = true :=
                hsat _ (dictGet_mem hget)
              refine satisfiesDict_dictSet hsat ?_
              rw [Interval.contains_intersect, hold, hcont]
              rfl

/-- The path-local narrowing done by `decideIf` keeps `σ` inside the
dictionary whenever `σ` agrees with the returned truth value. -/
theorem lcDecideIf_preserve (σ : String → ℚ) {d : ConstrDict} {e : Expr} {b other : Bool}
    {lin : LinCmpExpr} {d' : ConstrDict}
    (h : lcDecideIf d e IneqMode.exact = .ok (b, other, lin, d'))
    (hsat : satisfiesDict σ d)
    (hc : evalCmpB σ e = some b) :
    satisfiesDict σ d' := by
  simp only [lcDecideIf] at h
  split at h
  · exact absurd h (by simp)
  · rename_i lin0 hparse
    by_cases hemp : lin0.coeffMap.isEmpty = true
    · rw [if_pos hemp] at h
      split at h
      · exact absurd h (by simp)
      · simp only [Except.ok.injEq, Prod.mk.injEq] at h
        obtain ⟨h1, h2, h3, h4⟩ := h
        subst h4
        exact hsat
    · rw [if_neg hemp] at h
      split at h
      · exact absurd h (by simp)
      · rename_i negO hno
        rw [convertOp_exact] at h
        simp only at h
        have hcmp : evalOpB (lindot σ lin0.coeffMap) lin0.op lin0.rhs = some b := by
          rw [← parseLinCmpExpr_sound σ e lin0 hparse]
          exact hc
        have hop4 : lin0.op = "<" ∨ lin0.op = ">" ∨ lin0.op = "≤" ∨ lin0.op = "≥" := by
          rcases negOp_cases hno with ⟨h1, _⟩ | ⟨h1, _⟩ | ⟨h1, _⟩ | ⟨h1, _⟩ <;>
            rw [h1] <;> simp
        have hno4 : negO = "<" ∨ negO = ">" ∨ negO = "≤" ∨ negO = "≥" := by
          rcases negOp_cases hno with ⟨_, h2⟩ | ⟨_, h2⟩ | ⟨_, h2⟩ | ⟨_, h2⟩ <;>
            rw [h2] <;> simp
        split at h
        · -- no stored interval: commit to the false side
          simp only [Except.ok.injEq, Prod.mk.injEq] at h
          obtain ⟨h1, h2, h3, h4⟩ := h
          subst h1
          subst h4
          have hnegtrue : evalOpB (lindot σ lin0.coeffMap) negO lin0.rhs = some true :=
            evalOpB_negOp hno _ _ _ hcmp
          have h2' := opToInterval_contains negO lin0.rhs (lindot σ lin0.coeffMap) hno4
          rw [hnegtrue] at h2'
          injection h2' with h2'
          exact satisfiesDict_dictSet hsat h2'.symm
        · rename_i oldInt hget
          split at h
          · exact absurd h (by simp)
          · have hold : oldInt.contains (lindot σ lin0.coeffMap) = true :=
              hsat _ (dictGet_mem hget)
            split at h
            · -- false side impossible: commit true
              simp only [Except.ok.injEq, Prod.mk.injEq] at h
              obtain ⟨h1, h2, h3, h4⟩ := h
              subst h1
              subst h4
              have h2' := opToInterval_contains lin0.op lin0.rhs (lindot σ lin0.coeffMap) hop4
              rw [hcmp] at h2'
              injection h2' with h2'
              refine satisfiesDict_dictSet hsat ?_
              rw [Interval.contains_intersect, hold, ← h2']
              rfl
            · -- commit false
              simp only [Except.ok.injEq, Prod.mk.injEq] at h
              obtain ⟨h1, h2, h3, h4⟩ := h
              subst h1
              subst h4
              have hnegtrue : evalOpB (lindot σ lin0.coeffMap) negO lin0.rhs = some true :=
                evalOpB_negOp hno _ _ _ hcmp
              have h2' := opToInterval_contains negO lin0.rhs (lindot σ lin0.coeffMap) hno4
              rw [hnegtrue] at h2'
              injection h2' with h2'
              refine satisfiesDict_dictSet hsat ?_
              rw [Interval.contains_intersect, hold, ← h2']
              rfl

/-- Domination is sound on the dictionary: if `decideIf` answers with
`exploreOtherSide = false` then every `σ` inside the dictionary gives the
expression the returned value. -/
theorem lcDecideIf_forced (σ : String → ℚ) {d : ConstrDict} {e : Expr} {b : Bool}
    {lin : LinCmpExpr} {d' : ConstrDict}
    (h : lcDecideIf d e IneqMode.exact = .ok (b, false, lin, d'))
    (hsat : satisfiesDict σ d) :
    evalCmpB σ e = some b := by
  simp only [lcDecideIf] at h
  split at h
  · exact absurd h (by simp)
  · rename_i lin0 hparse
    have hev := parseLinCmpExpr_sound σ e lin0 hparse
    by_cases hemp : lin0.coeffMap.isEmpty = true
    · rw [if_pos hemp] at h
      split at h
      · exact absurd h (by simp)
      · rename_i v hv
        simp only [Except.ok.injEq, Prod.mk.injEq] at h
        obtain ⟨h1, h2, h3, h4⟩ := h
        subst h1
        rw [hev, isEmpty_coeffMap_eq_nil hemp, lindot_nil]
        exact (evalOp_evalOpB 0 lin0.rhs lin0.op v).mp hv
    · rw [if_neg hemp] at h
      split at h
      · exact absurd h (by simp)
      · rename_i negO hno
        rw [convertOp_exact] at h
        simp only at h
        have hop4 : lin0.op = "<" ∨ lin0.op = ">" ∨ lin0.op = "≤" ∨ lin0.op = "≥" := by
          rcases negOp_cases hno with ⟨h1, _⟩ | ⟨h1, _⟩ | ⟨h1, _⟩ | ⟨h1, _⟩ <;>
            rw [h1] <;> simp
        have hno4 : negO = "<" ∨ negO = ">" ∨ negO = "≤" ∨ negO = "≥" := by
          rcases negOp_cases hno with ⟨_, h2⟩ | ⟨_, h2⟩ | ⟨_, h2⟩ | ⟨_, h2⟩ <;>
            rw [h2] <;> simp
        have hvt := opToInterval_contains lin0.op lin0.rhs (lindot σ lin0.coeffMap) hop4
        have hvf := opToInterval_contains negO lin0.rhs (lindot σ lin0.coeffMap) hno4
        split at h
        · -- no stored interval: exploreOtherSide is true, contradiction
          simp only [Except.ok.injEq, Prod.mk.injEq] at h
          obtain ⟨h1, h2, h3, h4⟩ := h
          exact absurd h2 (by simp)
        · rename_i oldInt hget
          split at h
          · exact absurd h (by simp)
          · have hold : oldInt.contains (lindot σ lin0.coeffMap) = true :=
              hsat _ (dictGet_mem hget)
            split at h
            · -- forced true
              rename_i hfe
              simp only [Except.ok.injEq, Prod.mk.injEq] at h
              obtain ⟨h1, h2, h3, h4⟩ := h
              subst h1
              rw [hev]
              cases hct : (opToInterval lin0.op lin0.rhs).contains (lindot σ lin0.coeffMap) with
              | true => rw [hvt, hct]
              | false =>
                exfalso
                rw [hct] at hvt
                have hnegtrue := evalOpB_negOp hno _ _ _ hvt
                rw [hvf] at hnegtrue
                injection hnegtrue with hnegtrue
                have hcf2 : ((oldInt.intersect
                    (opToInterval negO lin0.rhs)).contains (lindot σ lin0.coeffMap)) = true := by
                  rw [Interval.contains_intersect, hold, hnegtrue]
                  rfl
                rw [Interval.not_contains_of_isEmpty _ _ hfe] at hcf2
                exact Bool.false_ne_true hcf2
            · -- forced false: the true side is impossible
              rename_i hfne
              simp only [Except.ok.injEq, Prod.mk.injEq] at h
              obtain ⟨h1, h2, h3, h4⟩ := h
              subst h1
              have hte : (oldInt.intersect (opToInterval lin0.op lin0.rhs)).isEmpty = true := by
                cases hx : (oldInt.intersect (opToInterval lin0.op lin0.rhs)).isEmpty with
                | true => rfl
                | false => simp [hx] at h2
              rw [hev]
              cases hct : (opToInterval lin0.op lin0.rhs).contains (lindot σ lin0.coeffMap) with
              | false => rw [hvt, hct]
              | true =>
                exfalso
                have hcf2 : ((oldInt.intersect
                    (opToInterval lin0.op lin0.rhs)).contains (lindot σ lin0.coeffMap)) = true := by
                  rw [Interval.contains_intersect, hold, hct]
                  rfl
                rw [Interval.not_contains_of_isEmpty _ _ hte] at hcf2
                exact Bool.false_ne_true hcf2

/-- Replaying a commitment sequence that `σ` satisfies leaves `σ` inside
the resulting dictionary. -/
theorem runLCEvents_sat (σ : String → ℚ) :
    ∀ (es : List LCEvent) (d d' : ConstrDict) (commits : List (Sum Bool Expr × Bool)),
    runLCEvents IneqMode.exact d es = .ok (d', commits) →
    eventsOkB IneqMode.exact es = true →
    commitsHoldB σ commits = true →
    satisfiesDict σ d → satisfiesDict σ d' := by
  intro es
  induction es with
  | nil =>
    intro d d' commits hrun _ _ hsat
    simp only [runLCEvents, Except.ok.injEq, Prod.mk.injEq] at hrun
    obtain ⟨h1, h2⟩ := hrun
    subst h1
    exact hsat
  | cons ev rest ih =>
    intro d d' commits hrun hok hσ hsat
    cases ev with
    | note c b =>
      simp only [runLCEvents] at hrun
      split at hrun
      · exact absurd hrun (by simp)
      · rename_i d1 hadd
        split at hrun
        · exact absurd hrun (by simp)
        · rename_i d2 l hrec
          simp only [Except.ok.injEq, Prod.mk.injEq] at hrun
          obtain ⟨h1, h2⟩ := hrun
          subst h1
          subst h2
          simp only [eventsOkB, List.all_cons, Bool.and_eq_true] at hok
          simp only [commitsHoldB, List.all_cons, Bool.and_eq_true, beq_iff_eq] at hσ
          have hsat1 := addConstr_sound σ hok.1 hadd hsat hσ.1
          exact ih d1 d2 l hrec hok.2 hσ.2 hsat1
    | decide e =>
      simp only [runLCEvents] at hrun
      split at hrun
      · exact absurd hrun (by simp)
      · rename_i r hdec
        split at hrun
        · exact absurd hrun (by simp)
        · rename_i d2 l hrec
          simp only [Except.ok.injEq, Prod.mk.injEq] at hrun
          obtain ⟨h1, h2⟩ := hrun
          subst h1
          subst h2
          simp only [eventsOkB, List.all_cons, Bool.and_eq_true] at hok
          simp only [commitsHoldB, List.all_cons, Bool.and_eq_true, beq_iff_eq] at hσ
          have hsat1 := lcDecideIf_preserve σ
            (show lcDecideIf d e IneqMode.exact = .ok (r.1, r.2.1, r.2.2.1, r.2.2.2) from hdec)
            hsat hσ.1
          exact ih r.2.2.2 d2 l hrec hok.2 hσ.2 hsat1

/-! ### Claim theorems for the constraint engine -/

/-- C10: for all intervals `a`, `b` and every number `x`,
`a.intersect(b).contains(x)` is true iff both `a.contains(x)` and
`b.contains(x)` are true; consequently `intersect` is commutative up to
the `contains` relation. -/
theorem interval_intersect_contains_iff (a b : Interval) (x : ℚ) :
    ((a.intersect b).contains x = (a.contains x && b.contains x)) ∧
    (a.intersect b).contains x = (b.intersect a).contains x := by
  refine ⟨Interval.contains_intersect a b x, ?_⟩
  rw [Interval.contains_intersect, Interval.contains_intersect, Bool.and_comm]

/-- C9: `CachedTreeExplorer.noteReturn` empties the memoization cache;
`LinConstrTreeExplorer.noteReturn` resets the working constraint map to
the pre-seeded base-constraint map, and the base-constraint map itself is
unchanged by `noteIf`, `decideIf` and `noteReturn`. -/
theorem noteReturn_resets_path_state
    (c : CachedTreeExplorer) (s : LinConstrTreeExplorer) (e1 e2 : Expr) (b : Bool)
    (s' : LinConstrTreeExplorer) (r : Bool × Bool × LinCmpExpr × LinConstrTreeExplorer)
    (hn : s.noteIf e1 b = .ok s') (hd : s.decideIf e2 = .ok r) :
    (CachedTreeExplorer.noteReturn c).cache = [] ∧
    (LinConstrTreeExplorer.noteReturn s).2.constraints = s.baseConstraintsDict ∧
    (LinConstrTreeExplorer.noteReturn s).2.baseConstraintsDict = s.baseConstraintsDict ∧
    s'.baseConstraintsDict = s.baseConstraintsDict ∧
    r.2.2.2.baseConstraintsDict = s.baseConstraintsDict := by
  refine ⟨rfl, rfl, rfl, ?_, ?_⟩
  · unfold LinConstrTreeExplorer.noteIf at hn
    split at hn
    · exact absurd hn (by simp)
    · injection hn with hn
      rw [← hn]
  · unfold LinConstrTreeExplorer.decideIf at hd
    split at hd
    · exact absurd hd (by simp)
    · injection hd with hd
      rw [← hd]

/-- Witness for C9 at a concrete explorer state. -/
theorem noteReturn_resets_path_state_witness :
    (LinConstrTreeExplorer.noteReturn
        (⟨[], IneqMode.exact, [], true⟩ : LinConstrTreeExplorer)).2.constraints =
      (⟨[], IneqMode.exact, [], true⟩ : LinConstrTreeExplorer).baseConstraintsDict :=
  (noteReturn_resets_path_state ⟨[]⟩ ⟨[], IneqMode.exact, [], true⟩
    (.binE "≥" (.var "x") (.const 0)) (.binE "≥" (.var "x") (.const 0)) true
    _ _ rfl rfl).2.1

/-- C1 (amended): pruning soundness of the domination explorer in exact
mode, for inequality constraints.  If a sequence of commitments
(`noteIf`/`decideIf` events, the pre-seeded base constraints included as
initial `note _ true` events) is replayed from the empty dictionary,
every committed `note` constraint is an inequality (the original claim
fails for equality constraints, which `opToInterval` mishandles), and the
assignment `σ` satisfies every committed constraint, then whenever
`decideIf` answers with `exploreOtherSide = false` (a `FrozenIfNode`
fixed at `b`), the expression evaluates to `b` under `σ` — no satisfying
assignment evaluates it to `¬b`. -/
theorem lin_constr_pruning_sound
    (events : List LCEvent) (σ : String → ℚ) (d : ConstrDict)
    (commits : List (Sum Bool Expr × Bool)) (e : Expr) (b : Bool) (lin : LinCmpExpr)
    (d' : ConstrDict)
    (hrun : runLCEvents IneqMode.exact [] events = .ok (d, commits))
    (hok : eventsOkB IneqMode.exact events = true)
    (hσ : commitsHoldB σ commits = true)
    (hdec : lcDecideIf d e IneqMode.exact = .ok (b, false, lin, d')) :
    evalCmpB σ e = some b :=
  lcDecideIf_forced σ hdec
    (runLCEvents_sat σ events [] d commits hrun hok hσ
      (fun p hp => absurd hp (List.not_mem_nil p)))

/-- Counterexample to C1 as stated: with the pre-seeded base constraint
`x == 0` (an equality), `decideIf (x > 0)` answers `(true,
exploreOtherSide = false)`, yet the assignment `x := 0` satisfies the
committed constraint and makes `x > 0` evaluate to `false = ¬true`.  The
equality is stored as the interval `(0, ∞)` by `opToInterval`. -/
theorem lin_constr_pruning_eq_constraint_cex :
    runLCEvents IneqMode.exact []
        [.note (.inr (.binE "==" (.var "x") (.const 0))) true] =
      .ok ([([("x", 1)], ⟨some 0, none, false, false⟩)],
           [(.inr (.binE "==" (.var "x") (.const 0)), true)]) ∧
    commitsHoldB (fun _ => 0) [(.inr (.binE "==" (.var "x") (.const 0)), true)] = true ∧
    lcDecideIf [([("x", 1)], ⟨some 0, none, false, false⟩)]
        (.binE ">" (.var "x") (.const 0)) IneqMode.exact =
      .ok (true, false, ⟨[("x", 1)], ">", 0⟩,
           [([("x", 1)], ⟨some 0, none, false, false⟩)]) ∧
    evalCmpB (fun _ => 0) (.binE ">" (.var "x") (.const 0)) = some false :=
  ⟨by with_unfolding_all rfl, by with_unfolding_all rfl, by with_unfolding_all rfl,
   by with_unfolding_all rfl⟩

/-- Witness for C1 at a concrete commitment sequence: after committing
`x ≥ 0` and `x ≤ 0`, `decideIf (x < 0)` freezes the decision at `false`,
and indeed `x := 0` evaluates `x < 0` to `false`. -/
theorem lin_constr_pruning_sound_witness :
    evalCmpB (fun _ => (0 : ℚ)) (.binE "<" (.var "x") (.const 0)) = some false :=
  lin_constr_pruning_sound
    [.note (.inr (.binE "≥" (.var "x") (.const 0))) true,
     .note (.inr (.binE "≤" (.var "x") (.const 0))) true]
    (fun _ => 0)
    [([("x", 1)], ⟨some 0, some 0, true, true⟩)]
    [(.inr (.binE "≥" (.var "x") (.const 0)), true),
     (.inr (.binE "≤" (.var "x") (.const 0)), true)]
    (.binE "<" (.var "x") (.const 0)) false
    ⟨[("x", 1)], "<", 0⟩
    [([("x", 1)], ⟨some 0, some 0, true, true⟩)]
    (by with_unfolding_all rfl) (by with_unfolding_all rfl) (by with_unfolding_all rfl)
    (by with_unfolding_all rfl)

/-- C5 (amended): on a linear comparison with a non-empty coefficient map
whose stored interval meets the negation-side interval, `decideIf`
returns `value = false`, stores the false-side intersection — and returns
`exploreOtherSide` equal to the non-emptiness of the true-side
intersection (the original claim said `exploreOtherSide = true`
unconditionally, which fails when the true side is already impossible). -/
theorem lc_decideIf_false_first
    (cs : ConstrDict) (e : Expr) (lin : LinCmpExpr) (oldInt : Interval) (negO : String)
    (hparse : parseLinCmpExpr e IneqMode.exact = .ok lin)
    (hne : lin.coeffMap.isEmpty = false)
    (hno : negOp lin.op = some negO)
    (hget : dictGet lin.coeffMap cs = some oldInt)
    (hoe : oldInt.isEmpty = false)
    (hfne : (oldInt.intersect (opToInterval negO lin.rhs)).isEmpty = false) :
    lcDecideIf cs e IneqMode.exact =
      .ok (false, !(oldInt.intersect (opToInterval lin.op lin.rhs)).isEmpty, lin,
        dictSet lin.coeffMap (oldInt.intersect (opToInterval negO lin.rhs)) cs) := by
  simp only [lcDecideIf, hparse, hne, hno, convertOp_exact, hget, hoe, hfne,
    Bool.false_eq_true, if_false]

/-- Witness for C5 at a concrete state: stored interval `[0, ∞)` for `x`,
deciding `x ≤ 2`. -/
theorem lc_decideIf_false_first_witness :
    lcDecideIf [([("x", 1)], ⟨some 0, none, true, false⟩)]
        (.binE "≤" (.var "x") (.const 2)) IneqMode.exact =
      .ok (false,
        !((⟨some 0, none, true, false⟩ : Interval).intersect (opToInterval "≤" 2)).isEmpty,
        ⟨[("x", 1)], "≤", 2⟩,
        dictSet [("x", 1)]
          ((⟨some 0, none, true, false⟩ : Interval).intersect (opToInterval ">" 2))
          [([("x", 1)], ⟨some 0, none, true, false⟩)]) :=
  lc_decideIf_false_first _ _ ⟨[("x", 1)], "≤", 2⟩ ⟨some 0, none, true, false⟩ ">"
    (by with_unfolding_all rfl) (by with_unfolding_all rfl) (by with_unfolding_all rfl)
    (by with_unfolding_all rfl) (by with_unfolding_all rfl) (by with_unfolding_all rfl)

/-- Counterexample to C5 as stated: with stored interval `[0, 0]` for `x`
(from `x ≥ 0` and `x ≤ 0`), deciding `x < 0` has a non-empty false-side
intersection (`[0, 0]`), yet the call returns `exploreOtherSide = false`
because the true side is empty — not `true` as claimed. -/
theorem lc_decideIf_false_first_cex :
    lcDecideIf [([("x", 1)], ⟨some 0, some 0, true, true⟩)]
        (.binE "<" (.var "x") (.const 0)) IneqMode.exact =
      .ok (false, false, ⟨[("x", 1)], "<", 0⟩,
           [([("x", 1)], ⟨some 0, some 0, true, true⟩)]) ∧
    ((⟨some 0, some 0, true, true⟩ : Interval).intersect
        (opToInterval "≥" 0)).isEmpty = false :=
  ⟨by with_unfolding_all rfl, by with_unfolding_all rfl⟩

/-- Parsing `a − b op c` when `a < b` in the name order: the smallest
name keeps coefficient `1`, so no sign flip happens. -/
theorem parseSub_lt (a b : String) (hab : a < b) (op : String)
    (hop : (flipOp op).isSome = true) (c : ℚ) :
    parseLinCmpExpr (.binE op (.binE "-" (.var a) (.var b)) (.const c))
        IneqMode.exact = .ok ⟨[(a, 1), (b, -1)], op, c⟩ := by
  have hba : ¬ b = a := Ne.symm (ne_of_lt hab)
  have hnlt : ¬ b < a := lt_asymm hab
  have hca : coeffAdd b (-1) [(a, (1 : ℚ))] = [(a, 1), (b, -1)] := by
    conv_lhs => rw [coeffAdd]
    rw [if_neg hba, if_neg hnlt]
    rfl
  have haff : parseAffineHelper (.binE "-" (.var a) (.var b)) 1 [] =
      .ok ([(a, 1), (b, -1)], 0 + 0) := by
    rw [← hca]
    with_unfolding_all rfl
  have haff2 : parseAffineHelper (.const c) (-1) [(a, 1), (b, -1)] =
      .ok ([(a, 1), (b, -1)], c * -1) := rfl
  have hfil : List.filter (fun p => !(decide (p.2 = 0))) [(a, (1 : ℚ)), (b, -1)] =
      [(a, 1), (b, -1)] := by
    with_unfolding_all rfl
  have hmin : argReprMin [a, b] = some a := by
    unfold argReprMin
    show (if b < a then some b else some a) = some a
    rw [if_neg hnlt]
  have hlook : lookupCoeff a [(a, (1 : ℚ)), (b, -1)] = 1 := by
    simp [lookupCoeff, List.find?]
  have hcanon : canonicalizeDict [(a, (1 : ℚ)), (b, -1)] = ([(a, 1), (b, -1)], false) := by
    unfold canonicalizeDict
    simp only [show List.map Prod.fst [(a, (1 : ℚ)), (b, -1)] = [a, b] from rfl, hmin, hlook]
    rw [if_pos (by norm_num : (1 : ℚ) ≥ 0)]
  conv_lhs => rw [parseLinCmpExpr]
  rw [if_pos hop]
  simp only [haff, haff2, hfil, hcanon, convertOp_exact, Bool.false_eq_true, if_false,
    Except.ok.injEq, LinCmpExpr.mk.injEq]
  norm_num

/-- Parsing `a − b op c` when `b < a` in the name order: the smallest
name has coefficient `-1`, so the combination is negated and the
operator flipped. -/
theorem parseSub_gt (a b : String) (hab : b < a) (op opf : String)
    (hf : flipOp op = some opf) (c : ℚ) :
    parseLinCmpExpr (.binE op (.binE "-" (.var a) (.var b)) (.const c))
        IneqMode.exact = .ok ⟨[(b, 1), (a, -1)], opf, -c⟩ := by
  have hba : ¬ b = a := ne_of_lt hab
  have hnlt : ¬ a < b := lt_asymm hab
  have hca : coeffAdd b (-1) [(a, (1 : ℚ))] = [(b, -1), (a, 1)] := by
    conv_lhs => rw [coeffAdd]
    rw [if_neg hba, if_pos hab]
  have haff : parseAffineHelper (.binE "-" (.var a) (.var b)) 1 [] =
      .ok ([(b, -1), (a, 1)], 0 + 0) := by
    rw [← hca]
    with_unfolding_all rfl
  have haff2 : parseAffineHelper (.const c) (-1) [(b, -1), (a, 1)] =
      .ok ([(b, -1), (a, 1)], c * -1) := rfl
  have hfil : List.filter (fun p => !(decide (p.2 = 0))) [(b, (-1 : ℚ)), (a, 1)] =
      [(b, -1), (a, 1)] := by
    with_unfolding_all rfl
  have hmin : argReprMin [b, a] = some b := by
    unfold argReprMin
    show (if a < b then some a else some b) = some b
    rw [if_neg hnlt]
  have hlook : lookupCoeff b [(b, (-1 : ℚ)), (a, 1)] = -1 := by
    simp [lookupCoeff, List.find?]
  have hcanon : canonicalizeDict [(b, (-1 : ℚ)), (a, 1)] = ([(b, 1), (a, -1)], true) := by
    unfold canonicalizeDict
    simp only [show List.map Prod.fst [(b, (-1 : ℚ)), (a, 1)] = [b, a] from rfl, hmin, hlook]
    rw [if_neg (by norm_num : ¬ (-1 : ℚ) ≥ 0)]
    norm_num
  conv_lhs => rw [parseLinCmpExpr]
  rw [if_pos (by rw [hf]; rfl : (flipOp op).isSome = true)]
  simp only [haff, haff2, hfil, hcanon, convertOp_exact, if_true, hf,
    Except.ok.injEq, LinCmpExpr.mk.injEq]
  norm_num

/-- C6: canonicalization stability: for distinct variables `x` and `y`,
parsing `x − y ≥ 2` and `y − x ≤ −2` yields `LinCmpExpr` values with
equal canonical keys (`key()`). -/
theorem canonical_key_stable (x y : String) (hxy : x ≠ y) :
    ∃ l1 l2 : LinCmpExpr,
      parseLinCmpExpr (.binE "≥" (.binE "-" (.var x) (.var y)) (.const 2))
          IneqMode.exact = .ok l1 ∧
      parseLinCmpExpr (.binE "≤" (.binE "-" (.var y) (.var x)) (.const (-2)))
          IneqMode.exact = .ok l2 ∧
      l1.key = l2.key := by
  rcases lt_or_gt_of_ne hxy with hlt | hgt
  · refine ⟨⟨[(x, 1), (y, -1)], "≥", 2⟩, ⟨[(x, 1), (y, -1)], "≥", -(-2)⟩, ?_, ?_, by rw [neg_neg]⟩
    · exact parseSub_lt x y hlt "≥" (by decide) 2
    · exact parseSub_gt y x hlt "≤" "≥" (by decide) (-2)
  · refine ⟨⟨[(y, 1), (x, -1)], "≤", -2⟩, ⟨[(y, 1), (x, -1)], "≤", -2⟩, ?_, ?_, rfl⟩
    · exact parseSub_gt x y hgt "≥" "≤" (by decide) 2
    · exact parseSub_lt y x hgt "≤" (by decide) (-2)

/-- Witness for C6 at the concrete variables `"x"` and `"y"`. -/
theorem canonical_key_stable_witness :
    ∃ l1 l2 : LinCmpExpr,
      parseLinCmpExpr (.binE "≥" (.binE "-" (.var "x") (.var "y")) (.const 2))
          IneqMode.exact = .ok l1 ∧
      parseLinCmpExpr (.binE "≤" (.binE "-" (.var "y") (.var "x")) (.const (-2)))
          IneqMode.exact = .ok l2 ∧
      l1.key = l2.key :=
  canonical_key_stable "x" "y" (by decide)

/-! ### Decision-tree nodes (`node.py`) and the generator (`rrtg.py`)

Nodes form a mutual inductive with `DKid` standing for Python's
`Optional[Node]` child slots (`DKid.none` is an empty slot).  The Python
parent pointers and the generator's `parent`/`current`/`kidIndex` triple
are replaced by a root-path `pos : List Nat`: the current node is the
node reached from the root along `pos` (an empty slot if absent), and the
parent is the node at `pos.dropLast`.  `InternalNode.setExploreStatusRec`,
which walks parent pointers upward, becomes the top-down `reExplore`
along that path; its returned `Bool` records whether the recursion
continued to the caller's parent.  Explorers are records of pure
state-passing functions (`TreeExplorerI`); the base `TreeExplorer` always
answers `(False, True, None)`.  In the repository every explorer's
`noteReturn` updates its state independently of the returned value, so
`noteReturn : S → S`. -/

mutual

inductive DNode (V : Type) where
  | ret (v : V)
  | ifN (e : Expr) (se : Option Expr) (flag : Bool) (k0 k1 : DKid V)
  | frozenIf (e : Expr) (se : Option Expr) (b : Bool) (flag : Bool) (k0 : DKid V)
  | infoN (v : V) (verb : String) (flag : Bool) (k0 : DKid V)

inductive DKid (V : Type) where
  | none
  | node (n : DNode V)

end

/-- `Node.explored` (a `ReturnNode` is created with `explored=True` and
never changed). -/
def DNode.exploredN {V : Type} : DNode V → Bool
  | .ret _ => true
  | .ifN _ _ flag _ _ => flag
  | .frozenIf _ _ _ flag _ => flag
  | .infoN _ _ flag _ => flag

/-- `kid is not None and kid.explored` for an optional slot. -/
def DKid.explored {V : Type} : DKid V → Bool
  | .none => false
  | .node n => n.exploredN

/-- `len(node.getKids())`. -/
def nkids {V : Type} : DNode V → Nat
  | .ret _ => 0
  | .ifN _ _ _ _ _ => 2
  | .frozenIf _ _ _ _ _ => 1
  | .infoN _ _ _ _ => 1

/-- `node.getKids()[i]` (out of range gives an empty slot). -/
def kidAt {V : Type} : DNode V → Nat → DKid V
  | .ifN _ _ _ k0 _, 0 => k0
  | .ifN _ _ _ _ k1, 1 => k1
  | .frozenIf _ _ _ _ k0, 0 => k0
  | .infoN _ _ _ k0, 0 => k0
  | _, _ => .none

/-- `node.kids[i] = k` as a functional update (out of range: no change). -/
def withKid {V : Type} : DNode V → Nat → DKid V → DNode V
  | .ifN e se flag _ k1, 0, k => .ifN e se flag k k1
  | .ifN e se flag k0 _, 1, k => .ifN e se flag k0 k
  | .frozenIf e se b flag _, 0, k => .frozenIf e se b flag k
  | .infoN v vb flag _, 0, k => .infoN v vb flag k
  | n, _, _ => n

/-- `self.explored = True` (`ret` is already explored). -/
def setFlag {V : Type} : DNode V → DNode V
  | .ret v => .ret v
  | .ifN e se _ k0 k1 => .ifN e se true k0 k1
  | .frozenIf e se b _ k0 => .frozenIf e se b true k0
  | .infoN v vb _ k0 => .infoN v vb true k0

/-- `nEKids == nKids` from `InternalNode.getKidsExploreStatus`. -/
def allKidsExplored {V : Type} : DNode V → Bool
  | .ret _ => true
  | .ifN _ _ _ k0 k1 => k0.explored && k1.explored
  | .frozenIf _ _ _ _ k0 => k0.explored
  | .infoN _ _ _ k0 => k0.explored

/-- `Node.goDown(path)`: follow child slots along a path. -/
def getAt {V : Type} (T : DKid V) (π : List Nat) : DKid V :=
  match π, T with
  | [], k => k
  | _ :: _, .none => .none
  | i :: ρ, .node n => getAt (kidAt n i) ρ
termination_by structural π

/-- Replace the subtree at a path. -/
def setAt {V : Type} (T : DKid V) (π : List Nat) (k : DKid V) : DKid V :=
  match π, T with
  | [], _ => k
  | _ :: _, .none => .none
  | i :: ρ, .node n => .node (withKid n i (setAt (kidAt n i) ρ k))
termination_by structural π

/-- Every proper prefix of the path leads to an existing node with the
next index in range (the slot at the path itself may be empty). -/
def validSlot {V : Type} (T : DKid V) (π : List Nat) : Bool :=
  match π, T with
  | [], _ => true
  | _ :: _, .none => false
  | i :: ρ, .node n => decide (i < nkids n) && validSlot (kidAt n i) ρ
termination_by structural π

/-- `InternalNode.setExploreStatusRec`, invoked on the node at the end of
the path, transcribed top-down from the subtree root: the update of each
ancestor happens only if the recursion from its child propagated upward
(the child found all its kids explored).  The returned `Bool` is whether
the node at the head of the path set its flag (and hence would have
called its own parent). -/
def reExplore {V : Type} : DNode V → List Nat → DNode V × Bool
  | n, [] => if allKidsExplored n then (setFlag n, true) else (n, false)
  | n, i :: π =>
    match kidAt n i with
    | .none => (n, false)
    | .node k =>
      match reExplore k π with
      | (k', prop) =>
        let n' := withKid n i (.node k')
        if prop then
          if allKidsExplored n' then (setFlag n', true) else (n', false)
        else (n', false)
termination_by structural _ π => π

mutual

/-- The explored flag of every node equals `allKidsExplored` (for a
leaf both sides are `true`). -/
def flagsGoodN {V : Type} : DNode V → Bool
  | .ret _ => true
  | .ifN _ _ flag k0 k1 =>
    (flag == (k0.explored && k1.explored)) && flagsGoodK k0 && flagsGoodK k1
  | .frozenIf _ _ _ flag k0 => (flag == k0.explored) && flagsGoodK k0
  | .infoN _ _ flag k0 => (flag == k0.explored) && flagsGoodK k0

def flagsGoodK {V : Type} : DKid V → Bool
  | .none => true
  | .node n => flagsGoodN n

end

/-- All child subtrees have good flags (the node's own flag is ignored). -/
def kidsGood {V : Type} : DNode V → Bool
  | .ret _ => true
  | .ifN _ _ _ k0 k1 => flagsGoodK k0 && flagsGoodK k1
  | .frozenIf _ _ _ _ k0 => flagsGoodK k0
  | .infoN _ _ _ k0 => flagsGoodK k0

/-- All child subtrees except the one at the given index have good flags. -/
def kidsGoodExcept {V : Type} : DNode V → Nat → Bool
  | .ifN _ _ _ _ k1, 0 => flagsGoodK k1
  | .ifN _ _ _ k0 _, 1 => flagsGoodK k0
  | .frozenIf _ _ _ _ _, 0 => true
  | .infoN _ _ _ _, 0 => true
  | _, _ => false

/-- The shape of the tree right after a leaf was written at the end of
the path: every node along the path is unexplored, subtrees hanging off
the path have good flags, and below the end of the path everything is
good.  This is the precondition under which `reExplore` restores
`flagsGoodN`. -/
def offGood {V : Type} : DNode V → List Nat → Bool
  | n, [] => !n.exploredN && kidsGood n
  | n, i :: π =>
    !n.exploredN &&
      (match kidAt n i with
       | .node k => offGood k π
       | .none => false) &&
      kidsGoodExcept n i
termination_by structural _ π => π

/-- `RepeatedRunTreeGen`'s tree state: `root` plus the root-path of the
current position (see the section comment). -/
structure GenState (V : Type) where
  root : DKid V
  pos : List Nat

/-- A `TreeExplorer` as a record of pure state-passing methods. -/
structure TreeExplorerI (S : Type) where
  decideIf : S → Expr → Bool × Bool × Option Expr × S
  noteIf : S → Expr → Bool → S
  noteReturn : S → S

/-- The base `TreeExplorer`: `decideIf` returns `(False, True, None)`,
`noteIf` and `noteReturn` do nothing. -/
def baseExplorer : TreeExplorerI Unit :=
  ⟨fun s _ => (false, true, none, s), fun s _ _ => s, fun s => s⟩

/-- `CachedTreeExplorer` packaged as a `TreeExplorerI`. -/
def cachedExplorerI : TreeExplorerI CachedTreeExplorer :=
  ⟨fun s e =>
     match CachedTreeExplorer.decideIf s e with
     | ((b, other, se), s') => (b, other, se, s'),
   fun s e b => CachedTreeExplorer.noteIf s e b,
   fun s => CachedTreeExplorer.noteReturn s⟩

/-- `RepeatedRunTreeGen.finished`: `root is not None and root.explored`. -/
def rrFinished {V : Type} (g : GenState V) : Bool := g.root.explored

/-- `RepeatedRunTreeGen.decideIf`.  Replay branch: an existing `IfNode`
or `FrozenIfNode` at the current position; asserts not all kids are
explored, descends into the unique unexplored side if the other side is
explored, otherwise consults the explorer and raises if it answers
`checkOther=False`.  Frontier branch (empty slot): consults the explorer
and creates an `IfNode` or `FrozenIfNode`. -/
def rrDecideIf {V S : Type} (ex : TreeExplorerI S) (σ : S) (g : GenState V) (e : Expr) :
    Except String (Bool × GenState V × S) :=
  match getAt g.root g.pos with
  | .node (.ifN _ _ _ k0 k1) =>
    if k0.explored && k1.explored then
      .error "assertion failed: sum(kidStatuses) < len(kidStatuses)"
    else if k1.explored then
      .ok (false, ⟨g.root, g.pos ++ [0]⟩, ex.noteIf σ e false)
    else if k0.explored then
      .ok (true, ⟨g.root, g.pos ++ [1]⟩, ex.noteIf σ e true)
    else
      match ex.decideIf σ e with
      | (b, checkOther, _, σ') =>
        if checkOther then .ok (b, ⟨g.root, g.pos ++ [if b then 1 else 0]⟩, σ')
        else .error "TreeExplorer.decideIf outputs inconsistent checkOther"
  | .node (.frozenIf _ _ b _ k0) =>
    if k0.explored then
      .error "assertion failed: sum(kidStatuses) < len(kidStatuses)"
    else .ok (b, ⟨g.root, g.pos ++ [0]⟩, ex.noteIf σ e b)
  | .node _ => .error "assertion failed: IfNode or FrozenIfNode expected"
  | .none =>
    match ex.decideIf σ e with
    | (b, checkOther, se, σ') =>
      if checkOther then
        .ok (b, ⟨setAt g.root g.pos (.node (.ifN e se false .none .none)),
                 g.pos ++ [if b then 1 else 0]⟩, σ')
      else
        .ok (b, ⟨setAt g.root g.pos (.node (.frozenIf e se b false .none)),
                 g.pos ++ [0]⟩, σ')

/-- `RepeatedRunTreeGen.addInfo`. -/
def rrAddInfo {V : Type} (g : GenState V) (v : V) (verb : String) :
    Except String (GenState V) :=
  match getAt g.root g.pos with
  | .node (.infoN _ vb _ _) =>
    if vb = verb then .ok ⟨g.root, g.pos ++ [0]⟩
    else .error "assertion failed: InfoNode with matching verb expected"
  | .node _ => .error "assertion failed: InfoNode with matching verb expected"
  | .none => .ok ⟨setAt g.root g.pos (.node (.infoN v verb false .none)), g.pos ++ [0]⟩

/-- `RepeatedRunTreeGen.reportEnd`: asserts the current slot is empty,
writes a `ReturnNode`, re-evaluates the explored flags bottom-up from
the parent, resets the position to the root, and calls the explorer's
`noteReturn`. -/
def rrReportEnd {V S : Type} (ex : TreeExplorerI S) (σ : S) (g : GenState V) (v : V) :
    Except String (GenState V × S) :=
  match getAt g.root g.pos with
  | .node _ => .error "assertion failed: current is None"
  | .none =>
    let root1 := setAt g.root g.pos (.node (.ret v))
    let root2 :=
      if g.pos = [] then root1
      else
        match root1 with
        | .none => .none
        | .node r => .node (reExplore r g.pos.dropLast).1
    .ok (⟨root2, []⟩, ex.noteReturn σ)

/-- `Expr.__bool__`: without an active engine it raises; with one it
returns exactly the engine's `decideIf`. -/
def exprBool {V S : Type} (ex : TreeExplorerI S) (engine : Option (GenState V × S))
    (e : Expr) : Except String (Bool × GenState V × S) :=
  match engine with
  | none => .error "forking on expressions is disabled."
  | some (g, σ) => rrDecideIf ex σ g e

/-- A pure target function as a decision program: a tree of boolean
decisions ending in returned values. -/
inductive DProg (V : Type) where
  | retP (v : V)
  | ifP (e : Expr) (thn els : DProg V)

/-- The generic function with exactly `k` boolean decisions on every
path: the condition at a prefix of decisions `pre` is `le pre` and the
return value of a complete path is `lv` of that path. -/
def fullProg {V : Type} : Nat → List Bool → (List Bool → Expr) → (List Bool → V) → DProg V
  | 0, pre, _, lv => .retP (lv pre)
  | k + 1, pre, le, lv =>
    .ifP (le pre) (fullProg k (pre ++ [true]) le lv) (fullProg k (pre ++ [false]) le lv)

/-- One run of the target function up to (not including) `reportEnd`:
each `if` goes through `RepeatedRunTreeGen.decideIf`. -/
def descend {V S : Type} (ex : TreeExplorerI S) (σ : S) (g : GenState V) :
    DProg V → Except String (V × GenState V × S)
  | .retP v => .ok (v, g, σ)
  | .ifP e thn els =>
    match rrDecideIf ex σ g e with
    | .error s => .error s
    | .ok (true, g', σ') => descend ex σ' g' thn
    | .ok (false, g', σ') => descend ex σ' g' els
termination_by structural p => p

/-- `RepeatedRunTreeGen.runOnce` on a decision program. -/
def runOnce {V S : Type} (ex : TreeExplorerI S) (σ : S) (g : GenState V) (p : DProg V) :
    Except String (GenState V × S) :=
  match descend ex σ g p with
  | .error s => .error s
  | .ok (v, g', σ') => rrReportEnd ex σ' g' v

/-- `RepeatedRunTreeGen.run`: `while not finished: runOnce`, with explicit
fuel bounding the number of runs. -/
def runLoop {V S : Type} (ex : TreeExplorerI S) :
    Nat → S → GenState V → DProg V → Except String (GenState V × S)
  | 0, σ, g, _ => if rrFinished g then .ok (g, σ) else .error "out of fuel"
  | fuel + 1, σ, g, p =>
    if rrFinished g then .ok (g, σ)
    else
      match runOnce ex σ g p with
      | .error s => .error s
      | .ok (g', σ') => runLoop ex fuel σ' g' p

/-- The subtree of height `k` (over decision prefix `pre`) after `m` of
its `2^k` leaves have been produced by the base-explorer run loop
(`1 ≤ m ≤ 2^k`): leaves fill the false side (kid 0) first. -/
def partN {V : Type} (le : List Bool → Expr) (lv : List Bool → V) :
    Nat → List Bool → Nat → DNode V
  | 0, pre, _ => .ret (lv pre)
  | k + 1, pre, m =>
    if m ≤ 2 ^ k then
      .ifN (le pre) none false (.node (partN le lv k (pre ++ [false]) m)) .none
    else
      .ifN (le pre) none (decide (m = 2 ^ (k + 1)))
        (.node (partN le lv k (pre ++ [false]) (2 ^ k)))
        (.node (partN le lv k (pre ++ [true]) (m - 2 ^ k)))

/-- The slot contents after `m` leaves (`m = 0`: still empty). -/
def slotN {V : Type} (le : List Bool → Expr) (lv : List Bool → V)
    (k : Nat) (pre : List Bool) (m : Nat) : DKid V :=
  if m = 0 then .none else .node (partN le lv k pre m)

/-- The subtree after the descend phase of run `m + 1` (`m < 2^k`): the
replayed path is unchanged and a fresh spine of unexplored `IfNode`s has
been created below the first empty slot; the `ReturnNode` slot at the
bottom is still empty. -/
def descN {V : Type} (le : List Bool → Expr) (lv : List Bool → V) :
    Nat → List Bool → Nat → DKid V
  | 0, _, _ => .none
  | k + 1, pre, m =>
    if m < 2 ^ k then
      .node (.ifN (le pre) none false (descN le lv k (pre ++ [false]) m) .none)
    else
      .node (.ifN (le pre) none false (.node (partN le lv k (pre ++ [false]) (2 ^ k)))
        (descN le lv k (pre ++ [true]) (m - 2 ^ k)))

/-- The decision sequence of leaf number `m` (0-indexed, false side
first): the binary digits of `m`, most significant first. -/
def binPath : Nat → Nat → List Bool
  | 0, _ => []
  | k + 1, m =>
    if m < 2 ^ k then false :: binPath k m else true :: binPath k (m - 2 ^ k)

/-- `binPath` as kid indices. -/
def binIdx (k m : Nat) : List Nat := (binPath k m).map (fun b => if b then 1 else 0)

mutual

/-- Number of `ReturnNode`s in a tree. -/
def countRetN {V : Type} : DNode V → Nat
  | .ret _ => 1
  | .ifN _ _ _ k0 k1 => countRetK k0 + countRetK k1
  | .frozenIf _ _ _ _ k0 => countRetK k0
  | .infoN _ _ _ k0 => countRetK k0

def countRetK {V : Type} : DKid V → Nat
  | .none => 0
  | .node n => countRetN n

end

mutual

/-- Number of `IfNode`s in a tree. -/
def countIfN {V : Type} : DNode V → Nat
  | .ret _ => 0
  | .ifN _ _ _ k0 k1 => 1 + countIfK k0 + countIfK k1
  | .frozenIf _ _ _ _ k0 => countIfK k0
  | .infoN _ _ _ k0 => countIfK k0

def countIfK {V : Type} : DKid V → Nat
  | .none => 0
  | .node n => countIfN n

end

mutual

/-- Root-to-leaf decision sequences (`false` = kid 0 of an `IfNode`). -/
def leafPathsN {V : Type} : DNode V → List (List Bool)
  | .ret _ => [[]]
  | .ifN _ _ _ k0 k1 =>
    (leafPathsK k0).map (List.cons false) ++ (leafPathsK k1).map (List.cons true)
  | .frozenIf _ _ _ _ k0 => leafPathsK k0
  | .infoN _ _ _ k0 => leafPathsK k0

def leafPathsK {V : Type} : DKid V → List (List Bool)
  | .none => []
  | .node n => leafPathsN n

end

/-! ### Structural lemmas about slots and paths -/

theorem kidAt_withKid_self {V : Type} (n : DNode V) (i : Nat) (k : DKid V)
    (h : i < nkids n) : kidAt (withKid n i k) i = k := by
  cases n <;> rcases i with _ | _ | i <;>
    first
      | rfl
      | (exfalso; simp only [nkids] at h; omega)

theorem kidAt_withKid_ne {V : Type} (n : DNode V) (i j : Nat) (k : DKid V)
    (h : j ≠ i) : kidAt (withKid n i k) j = kidAt n j := by
  cases n <;> rcases i with _ | _ | i <;> rcases j with _ | _ | j <;>
    first
      | rfl
      | (exact absurd rfl h)

theorem withKid_kidAt_self {V : Type} (n : DNode V) (i : Nat) :
    withKid n i (kidAt n i) = n := by
  cases n <;> rcases i with _ | _ | i <;> rfl

theorem withKid_withKid {V : Type} (n : DNode V) (i : Nat) (a b : DKid V) :
    withKid (withKid n i a) i b = withKid n i b := by
  cases n <;> rcases i with _ | _ | i <;> rfl

theorem withKid_oor {V : Type} (n : DNode V) (i : Nat) (k : DKid V)
    (h : ¬ i < nkids n) : withKid n i k = n := by
  cases n <;> rcases i with _ | _ | i <;>
    first
      | rfl
      | (exfalso; exact h (by simp only [nkids]; omega))

theorem exploredN_withKid {V : Type} (n : DNode V) (i : Nat) (k : DKid V) :
    (withKid n i k).exploredN = n.exploredN := by
  cases n <;> rcases i with _ | _ | i <;> rfl

theorem nkids_withKid {V : Type} (n : DNode V) (i : Nat) (k : DKid V) :
    nkids (withKid n i k) = nkids n := by
  cases n <;> rcases i with _ | _ | i <;> rfl

theorem exploredN_setFlag {V : Type} (n : DNode V) :
    (setFlag n).exploredN = true := by
  cases n <;> rfl

theorem kidAt_setFlag {V : Type} (n : DNode V) (j : Nat) :
    kidAt (setFlag n) j = kidAt n j := by
  cases n <;> rcases j with _ | _ | j <;> rfl

theorem getAt_none {V : Type} (π : List Nat) :
    getAt (DKid.none : DKid V) π = .none := by
  cases π <;> rfl

theorem getAt_append {V : Type} (π ρ : List Nat) :
    ∀ T : DKid V, getAt T (π ++ ρ) = getAt (getAt T π) ρ := by
  induction π with
  | nil => intro T; rfl
  | cons i π ih =>
    intro T
    cases T with
    | none => rw [getAt_none, getAt_none, getAt_none]
    | node n =>
      show getAt (kidAt n i) (π ++ ρ) = getAt (getAt (kidAt n i) π) ρ
      exact ih (kidAt n i)

theorem setAt_append {V : Type} (π ρ : List Nat) :
    ∀ (T : DKid V) (k : DKid V),
      setAt T (π ++ ρ) k = setAt T π (setAt (getAt T π) ρ k) := by
  induction π with
  | nil => intro T k; rfl
  | cons i π ih =>
    intro T k
    cases T with
    | none => rfl
    | node n =>
      show DKid.node (withKid n i (setAt (kidAt n i) (π ++ ρ) k)) = _
      rw [ih (kidAt n i) k]
      rfl

theorem setAt_setAt {V : Type} (π : List Nat) :
    ∀ (T a b : DKid V), setAt (setAt T π a) π b = setAt T π b := by
  induction π with
  | nil => intro T a b; rfl
  | cons i π ih =>
    intro T a b
    cases T with
    | none => rfl
    | node n =>
      have hr : ∀ (m : DNode V) (c : DKid V), setAt (DKid.node m) (i :: π) c =
          DKid.node (withKid m i (setAt (kidAt m i) π c)) := fun _ _ => rfl
      rw [hr n a, hr (withKid n i (setAt (kidAt n i) π a)) b, hr n b]
      by_cases h : i < nkids n
      · rw [kidAt_withKid_self n i _ h, withKid_withKid, ih]
      · rw [withKid_oor n i _ h, withKid_oor n i _ h]

theorem getAt_setAt_self {V : Type} (π : List Nat) :
    ∀ (T k : DKid V), validSlot T π = true → getAt (setAt T π k) π = k := by
  induction π with
  | nil => intro T k _; rfl
  | cons i π ih =>
    intro T k hv
    cases T with
    | none => exact absurd hv (by simp [validSlot])
    | node n =>
      simp only [validSlot, Bool.and_eq_true, decide_eq_true_eq] at hv
      show getAt (kidAt (withKid n i (setAt (kidAt n i) π k)) i) π = k
      rw [kidAt_withKid_self n i _ hv.1]
      exact ih (kidAt n i) k hv.2

theorem setAt_getAt_self {V : Type} (π : List Nat) :
    ∀ T : DKid V, setAt T π (getAt T π) = T := by
  induction π with
  | nil => intro T; rfl
  | cons i π ih =>
    intro T
    cases T with
    | none => rfl
    | node n =>
      show DKid.node (withKid n i (setAt (kidAt n i) π (getAt (kidAt n i) π))) = _
      rw [ih (kidAt n i), withKid_kidAt_self]

theorem validSlot_setAt {V : Type} (π : List Nat) :
    ∀ (T k : DKid V), validSlot T π = true → validSlot (setAt T π k) π = true := by
  induction π with
  | nil => intro T k _; rfl
  | cons i π ih =>
    intro T k hv
    cases T with
    | none => exact absurd hv (by simp [validSlot])
    | node n =>
      simp only [validSlot, Bool.and_eq_true, decide_eq_true_eq] at hv
      show (decide (i < nkids (withKid n i (setAt (kidAt n i) π k))) &&
        validSlot (kidAt (withKid n i (setAt (kidAt n i) π k)) i) π) = true
      rw [nkids_withKid, kidAt_withKid_self n i _ hv.1]
      simp only [Bool.and_eq_true, decide_eq_true_eq]
      exact ⟨hv.1, ih (kidAt n i) k hv.2⟩

theorem validSlot_snoc {V : Type} (π : List Nat) :
    ∀ (T : DKid V) (n : DNode V) (i : Nat), validSlot T π = true →
      getAt T π = .node n → i < nkids n → validSlot T (π ++ [i]) = true := by
  induction π with
  | nil =>
    intro T n i _ hg hi
    cases T with
    | none => exact absurd hg (by intro h; cases h)
    | node n0 =>
      cases hg
      show (decide (i < nkids n) && validSlot (kidAt n i) []) = true
      simp [hi, validSlot]
  | cons j π ih =>
    intro T n i hv hg hi
    cases T with
    | none => exact absurd hv (by simp [validSlot])
    | node n0 =>
      simp only [validSlot, Bool.and_eq_true, decide_eq_true_eq] at hv
      show (decide (j < nkids n0) && validSlot (kidAt n0 j) (π ++ [i])) = true
      simp only [Bool.and_eq_true, decide_eq_true_eq]
      exact ⟨hv.1, ih (kidAt n0 j) n i hv.2 hg hi⟩

/-! ### Facts about the partial-tree family -/

theorem partN_exploredN_lt {V : Type} (le : List Bool → Expr) (lv : List Bool → V)
    (k : Nat) (pre : List Bool) (m : Nat) (h1 : 1 ≤ m) (h2 : m < 2 ^ k) :
    (partN le lv k pre m).exploredN = false := by
  cases k with
  | zero => simp at h2; omega
  | succ k =>
    rw [partN]
    by_cases h : m ≤ 2 ^ k
    · rw [if_pos h]; rfl
    · rw [if_neg h]
      show decide (m = 2 ^ (k + 1)) = false
      simp only [decide_eq_false_iff_not]
      omega

theorem partN_exploredN_full {V : Type} (le : List Bool → Expr) (lv : List Bool → V)
    (k : Nat) (pre : List Bool) :
    (partN le lv k pre (2 ^ k)).exploredN = true := by
  cases k with
  | zero => rfl
  | succ k =>
    rw [partN]
    have h : ¬ 2 ^ (k + 1) ≤ 2 ^ k := by
      have h1 := Nat.two_pow_pos k
      rw [pow_succ]
      omega
    rw [if_neg h]
    show decide (2 ^ (k + 1) = 2 ^ (k + 1)) = true
    simp

theorem append_cons_eq {α : Type} (pre : List α) (b : α) (l : List α) :
    (pre ++ [b]) ++ l = pre ++ b :: l := by
  simp

theorem getAt_child {V : Type} {T : DKid V} {π : List Nat} {n : DNode V} (i : Nat)
    (hT : getAt T π = .node n) : getAt T (π ++ [i]) = kidAt n i := by
  rw [getAt_append, hT]
  rfl

theorem setAt_child {V : Type} {T : DKid V} {π : List Nat} {n : DNode V} (i : Nat)
    (X : DKid V) (hT : getAt T π = .node n) :
    setAt T (π ++ [i]) X = setAt T π (.node (withKid n i X)) := by
  rw [setAt_append, hT]
  rfl

theorem binPath_lt (k m : Nat) (h : m < 2 ^ k) :
    binPath (k + 1) m = false :: binPath k m := by
  simp only [binPath, if_pos h]

theorem binPath_ge (k m : Nat) (h : ¬ m < 2 ^ k) :
    binPath (k + 1) m = true :: binPath k (m - 2 ^ k) := by
  simp only [binPath, if_neg h]

theorem binIdx_lt (k m : Nat) (h : m < 2 ^ k) :
    binIdx (k + 1) m = 0 :: binIdx k m := by
  simp only [binIdx, binPath, if_pos h, List.map_cons, if_neg Bool.false_ne_true]

theorem binIdx_ge (k m : Nat) (h : ¬ m < 2 ^ k) :
    binIdx (k + 1) m = 1 :: binIdx k (m - 2 ^ k) := by
  simp only [binIdx, binPath, if_neg h, List.map_cons, if_true]

/-- One descend phase of the base-explorer run loop, started at a
position holding the partial subtree with `m` of `2^k` leaves: it follows
(or creates) the path to leaf `m`, leaves the tree in the post-descend
shape `descN`, and ends at the still-empty leaf slot. -/
theorem descend_partN {V : Type} (le : List Bool → Expr) (lv : List Bool → V)
    (k : Nat) :
    ∀ (pre : List Bool) (m : Nat) (T : DKid V) (π : List Nat),
      m < 2 ^ k → validSlot T π = true → getAt T π = slotN le lv k pre m →
      descend baseExplorer () ⟨T, π⟩ (fullProg k pre le lv) =
        .ok (lv (pre ++ binPath k m),
             ⟨setAt T π (descN le lv k pre m), π ++ binIdx k m⟩, ()) := by
  induction k with
  | zero =>
    intro pre m T π hm hv hT
    have hm0 : m = 0 := by simpa using hm
    subst hm0
    have h0 : descN le lv 0 pre 0 = getAt T π := by rw [hT]; rfl
    show Except.ok (lv pre, (⟨T, π⟩ : GenState V), ()) = _
    rw [show binPath 0 0 = [] from rfl, show binIdx 0 0 = [] from rfl,
      List.append_nil, List.append_nil, h0, setAt_getAt_self]
  | succ k ih =>
    intro pre m T π hm hv hT
    have hpos : 0 < 2 ^ k := Nat.two_pow_pos k
    by_cases hm0 : m = 0
    · -- frontier: the current slot is empty; a fresh IfNode is created
      subst hm0
      have hTn : getAt T π = .none := by rw [hT]; rfl
      have hd : rrDecideIf baseExplorer () ⟨T, π⟩ (le pre) =
          .ok (false, ⟨setAt T π (.node (.ifN (le pre) none false .none .none)),
            π ++ [0]⟩, ()) := by
        simp only [rrDecideIf, hTn, baseExplorer, if_true, Bool.false_eq_true, if_false]
      simp only [fullProg, descend, hd]
      have hT1 : getAt (setAt T π (.node (.ifN (le pre) none false .none .none))) π =
          .node (.ifN (le pre) none false .none .none) := getAt_setAt_self π T _ hv
      have hv1 : validSlot (setAt T π (.node (.ifN (le pre) none false .none .none)))
          (π ++ [0]) = true := by
        apply validSlot_snoc π _ _ 0 (validSlot_setAt π T _ hv) hT1
        show 0 < 2
        omega
      rw [ih (pre ++ [false]) 0 _ (π ++ [0]) hpos hv1
        (by rw [getAt_child 0 hT1]; rfl)]
      rw [setAt_child 0 _ hT1, setAt_setAt]
      rw [binPath_lt k 0 hpos, binIdx_lt k 0 hpos]
      rw [show descN le lv (k + 1) pre 0 =
        .node (.ifN (le pre) none false (descN le lv k (pre ++ [false]) 0) .none) by
          rw [descN, if_pos hpos]]
      rw [append_cons_eq, append_cons_eq]
      rfl
    · have hm1 : 1 ≤ m := by omega
      by_cases hlt : m < 2 ^ k
      · -- replay of the left (false) side, still incomplete
        have hTn : getAt T π = .node (.ifN (le pre) none false
            (.node (partN le lv k (pre ++ [false]) m)) .none) := by
          rw [hT]
          simp only [slotN, if_neg hm0]
          rw [partN, if_pos (by omega : m ≤ 2 ^ k)]
        have hk0 : (partN le lv k (pre ++ [false]) m).exploredN = false :=
          partN_exploredN_lt le lv k _ m hm1 hlt
        have hd : rrDecideIf baseExplorer () ⟨T, π⟩ (le pre) =
            .ok (false, ⟨T, π ++ [0]⟩, ()) := by
          simp only [rrDecideIf, hTn, DKid.explored, hk0, baseExplorer, Bool.false_and,
            Bool.and_false, Bool.false_eq_true, if_false, if_true]
        simp only [fullProg, descend, hd]
        rw [ih (pre ++ [false]) m T (π ++ [0]) hlt
          (validSlot_snoc π T _ 0 hv hTn (by show 0 < 2; omega))
          (by rw [getAt_child 0 hTn]; show DKid.node _ = _; simp only [slotN, if_neg hm0])]
        rw [setAt_child 0 _ hTn]
        rw [binPath_lt k m hlt, binIdx_lt k m hlt]
        rw [show descN le lv (k + 1) pre m =
          .node (.ifN (le pre) none false (descN le lv k (pre ++ [false]) m) .none) by
            rw [descN, if_pos hlt]]
        rw [append_cons_eq, append_cons_eq]
        rfl
      · -- the left side is complete: replay (or start) the right side
        have hsub : m - 2 ^ k < 2 ^ k := by
          have : (2 : Nat) ^ (k + 1) = 2 ^ k * 2 := pow_succ 2 k
          omega
        have hk0full : (partN le lv k (pre ++ [false]) (2 ^ k)).exploredN = true :=
          partN_exploredN_full le lv k _
        by_cases heq : m = 2 ^ k
        · -- boundary: right side still empty
          subst heq
          have hTn : getAt T π = .node (.ifN (le pre) none false
              (.node (partN le lv k (pre ++ [false]) (2 ^ k))) .none) := by
            rw [hT]
            simp only [slotN, if_neg hm0]
            rw [partN, if_pos (le_refl _)]
          have hd : rrDecideIf baseExplorer () ⟨T, π⟩ (le pre) =
              .ok (true, ⟨T, π ++ [1]⟩, ()) := by
            simp only [rrDecideIf, hTn, DKid.explored, hk0full, baseExplorer, Bool.and_false,
              Bool.false_eq_true, if_false, if_true]
          simp only [fullProg, descend, hd]
          rw [ih (pre ++ [true]) 0 T (π ++ [1]) hpos
            (validSlot_snoc π T _ 1 hv hTn (by show 1 < 2; omega))
            (by rw [getAt_child 1 hTn]; rfl)]
          rw [setAt_child 1 _ hTn]
          rw [binPath_ge k (2 ^ k) hlt, binIdx_ge k (2 ^ k) hlt, Nat.sub_self]
          rw [show descN le lv (k + 1) pre (2 ^ k) =
            .node (.ifN (le pre) none false
              (.node (partN le lv k (pre ++ [false]) (2 ^ k)))
              (descN le lv k (pre ++ [true]) (2 ^ k - 2 ^ k))) by
              rw [descN, if_neg hlt]]
          rw [append_cons_eq, append_cons_eq, Nat.sub_self]
          rfl
        · -- right side partially filled
          have hgt : 2 ^ k < m := by omega
          have hm1' : 1 ≤ m - 2 ^ k := by omega
          have hTn : getAt T π = .node (.ifN (le pre) none (decide (m = 2 ^ (k + 1)))
              (.node (partN le lv k (pre ++ [false]) (2 ^ k)))
              (.node (partN le lv k (pre ++ [true]) (m - 2 ^ k)))) := by
            rw [hT]
            simp only [slotN, if_neg hm0]
            rw [partN, if_neg (by omega : ¬ m ≤ 2 ^ k)]
          have hk1 : (partN le lv k (pre ++ [true]) (m - 2 ^ k)).exploredN = false :=
            partN_exploredN_lt le lv k _ _ hm1' hsub
          have hd : rrDecideIf baseExplorer () ⟨T, π⟩ (le pre) =
              .ok (true, ⟨T, π ++ [1]⟩, ()) := by
            simp only [rrDecideIf, hTn, DKid.explored, hk0full, hk1, baseExplorer,
              Bool.and_false, Bool.false_eq_true, if_false, if_true]
          simp only [fullProg, descend, hd]
          rw [ih (pre ++ [true]) (m - 2 ^ k) T (π ++ [1]) hsub
            (validSlot_snoc π T _ 1 hv hTn (by show 1 < 2; omega))
            (by rw [getAt_child 1 hTn]; show DKid.node _ = _
                simp only [slotN, if_neg (by omega : ¬ m - 2 ^ k = 0)])]
          rw [setAt_child 1 _ hTn]
          rw [binPath_ge k m hlt, binIdx_ge k m hlt]
          rw [show descN le lv (k + 1) pre m =
            .node (.ifN (le pre) none false
              (.node (partN le lv k (pre ++ [false]) (2 ^ k)))
              (descN le lv k (pre ++ [true]) (m - 2 ^ k))) by
              rw [descN, if_neg hlt]]
          rw [show (decide (m = 2 ^ (k + 1))) = false from by
            simp only [decide_eq_false_iff_not]
            omega]
          rw [append_cons_eq, append_cons_eq]
          rfl

theorem dropLast_cons_ne {α : Type} (a : α) (l : List α) (h : l ≠ []) :
    (a :: l).dropLast = a :: l.dropLast := by
  cases l with
  | nil => exact absurd rfl h
  | cons b l => rfl

theorem binIdx_ne_nil (k m : Nat) : binIdx (k + 1) m ≠ [] := by
  by_cases h : m < 2 ^ k
  · rw [binIdx_lt k m h]; simp
  · rw [binIdx_ge k m h]; simp

theorem getAt_descN {V : Type} (le : List Bool → Expr) (lv : List Bool → V) (k : Nat) :
    ∀ (pre : List Bool) (m : Nat), m < 2 ^ k →
      getAt (descN le lv k pre m) (binIdx k m) = (.none : DKid V) := by
  induction k with
  | zero => intro pre m hm; rfl
  | succ k ih =>
    intro pre m hm
    by_cases h : m < 2 ^ k
    · rw [descN, if_pos h, binIdx_lt k m h]
      show getAt (descN le lv k (pre ++ [false]) m) (binIdx k m) = _
      exact ih _ m h
    · rw [descN, if_neg h, binIdx_ge k m h]
      show getAt (descN le lv k (pre ++ [true]) (m - 2 ^ k)) (binIdx k (m - 2 ^ k)) = _
      refine ih _ _ ?_
      have h2 : (2 : Nat) ^ (k + 1) = 2 ^ k * 2 := pow_succ 2 k
      omega

theorem reExplore_cons {V : Type} (n : DNode V) (i : Nat) (π : List Nat) (k : DNode V)
    (hk : kidAt n i = .node k) :
    reExplore n (i :: π) =
      (if (reExplore k π).2 then
         if allKidsExplored (withKid n i (.node (reExplore k π).1)) then
           (setFlag (withKid n i (.node (reExplore k π).1)), true)
         else (withKid n i (.node (reExplore k π).1), false)
       else (withKid n i (.node (reExplore k π).1), false)) := by
  conv_lhs => rw [reExplore]
  rw [hk]

/-- Writing the `m`-th `ReturnNode` into the post-descend tree and
re-evaluating the explored flags from its parent upward yields exactly
the partial tree with `m + 1` leaves; the recursion propagates past the
subtree root exactly when the subtree just became complete. -/
theorem fill_reExplore {V : Type} (le : List Bool → Expr) (lv : List Bool → V)
    (k : Nat) :
    ∀ (pre : List Bool) (m : Nat), m < 2 ^ (k + 1) →
      ∃ r : DNode V,
        setAt (descN le lv (k + 1) pre m) (binIdx (k + 1) m)
            (.node (.ret (lv (pre ++ binPath (k + 1) m)))) = .node r ∧
        reExplore r (binIdx (k + 1) m).dropLast =
          (partN le lv (k + 1) pre (m + 1), decide (m + 1 = 2 ^ (k + 1))) := by
  induction k with
  | zero =>
    intro pre m hm
    rcases m with _ | _ | m
    · exact ⟨.ifN (le pre) none false (.node (.ret (lv (pre ++ [false])))) .none,
        rfl, rfl⟩
    · exact ⟨.ifN (le pre) none false (.node (.ret (lv (pre ++ [false]))))
        (.node (.ret (lv (pre ++ [true])))), rfl, rfl⟩
    · exfalso; simp at hm; omega
  | succ k ih =>
    intro pre m hm
    have h2 : (2 : Nat) ^ (k + 2) = 2 ^ (k + 1) * 2 := pow_succ 2 (k + 1)
    by_cases hlt : m < 2 ^ (k + 1)
    · -- the new leaf lands in the false-side subtree
      obtain ⟨r', hset', hre'⟩ := ih (pre ++ [false]) m hlt
      refine ⟨.ifN (le pre) none false (.node r') .none, ?_, ?_⟩
      · rw [descN, if_pos hlt, binIdx_lt (k + 1) m hlt, binPath_lt (k + 1) m hlt]
        rw [← append_cons_eq pre false (binPath (k + 1) m)]
        show DKid.node (withKid (.ifN (le pre) none false
          (descN le lv (k + 1) (pre ++ [false]) m) .none) 0
          (setAt (descN le lv (k + 1) (pre ++ [false]) m) (binIdx (k + 1) m)
            (.node (.ret (lv ((pre ++ [false]) ++ binPath (k + 1) m)))))) = _
        rw [hset']
        rfl
      · rw [binIdx_lt (k + 1) m hlt,
          dropLast_cons_ne 0 (binIdx (k + 1) m) (binIdx_ne_nil k m)]
        rw [reExplore_cons (.ifN (le pre) none false (.node r') .none) 0
          (binIdx (k + 1) m).dropLast r' rfl, hre']
        dsimp only [withKid, setFlag]
        rw [show allKidsExplored (DNode.ifN (le pre) none false
          (.node (partN le lv (k + 1) (pre ++ [false]) (m + 1))) (DKid.none : DKid V)) = false by
            show (_ && DKid.explored .none) = false
            simp [DKid.explored]]
        rw [if_neg (by simp : ¬ (false : Bool) = true)]
        rw [ite_self]
        rw [show partN le lv (k + 2) pre (m + 1) = .ifN (le pre) none false
          (.node (partN le lv (k + 1) (pre ++ [false]) (m + 1))) .none by
            rw [partN, if_pos (by omega : m + 1 ≤ 2 ^ (k + 1))]]
        rw [show decide (m + 1 = 2 ^ (k + 2)) = false by
          simp only [decide_eq_false_iff_not]; omega]
    · -- the new leaf lands in the true-side subtree
      have hm' : m - 2 ^ (k + 1) < 2 ^ (k + 1) := by omega
      obtain ⟨r', hset', hre'⟩ := ih (pre ++ [true]) (m - 2 ^ (k + 1)) hm'
      refine ⟨.ifN (le pre) none false
        (.node (partN le lv (k + 1) (pre ++ [false]) (2 ^ (k + 1)))) (.node r'), ?_, ?_⟩
      · rw [descN, if_neg hlt, binIdx_ge (k + 1) m hlt, binPath_ge (k + 1) m hlt]
        rw [← append_cons_eq pre true (binPath (k + 1) (m - 2 ^ (k + 1)))]
        show DKid.node (withKid (.ifN (le pre) none false
          (.node (partN le lv (k + 1) (pre ++ [false]) (2 ^ (k + 1))))
          (descN le lv (k + 1) (pre ++ [true]) (m - 2 ^ (k + 1)))) 1
          (setAt (descN le lv (k + 1) (pre ++ [true]) (m - 2 ^ (k + 1)))
            (binIdx (k + 1) (m - 2 ^ (k + 1)))
            (.node (.ret (lv ((pre ++ [true]) ++ binPath (k + 1) (m - 2 ^ (k + 1)))))))) = _
        rw [hset']
        rfl
      · rw [binIdx_ge (k + 1) m hlt,
          dropLast_cons_ne 1 (binIdx (k + 1) (m - 2 ^ (k + 1)))
            (binIdx_ne_nil k (m - 2 ^ (k + 1)))]
        rw [reExplore_cons (.ifN (le pre) none false
          (.node (partN le lv (k + 1) (pre ++ [false]) (2 ^ (k + 1)))) (.node r')) 1
          (binIdx (k + 1) (m - 2 ^ (k + 1))).dropLast r' rfl, hre']
        dsimp only [withKid, setFlag]
        by_cases hfull : m - 2 ^ (k + 1) + 1 = 2 ^ (k + 1)
        · rw [show decide (m - 2 ^ (k + 1) + 1 = 2 ^ (k + 1)) = true by simp [hfull]]
          rw [if_pos rfl]
          rw [show allKidsExplored (DNode.ifN (le pre) none false
            (.node (partN le lv (k + 1) (pre ++ [false]) (2 ^ (k + 1))))
            (.node (partN le lv (k + 1) (pre ++ [true]) (m - 2 ^ (k + 1) + 1)))) = true by
              show ((partN le lv (k + 1) (pre ++ [false]) (2 ^ (k + 1))).exploredN &&
                (partN le lv (k + 1) (pre ++ [true]) (m - 2 ^ (k + 1) + 1)).exploredN) = true
              rw [partN_exploredN_full, hfull, partN_exploredN_full]
              rfl]
          rw [if_pos rfl]
          rw [show partN le lv (k + 2) pre (m + 1) = .ifN (le pre) none true
            (.node (partN le lv (k + 1) (pre ++ [false]) (2 ^ (k + 1))))
            (.node (partN le lv (k + 1) (pre ++ [true]) (m + 1 - 2 ^ (k + 1)))) by
              rw [partN, if_neg (by omega : ¬ m + 1 ≤ 2 ^ (k + 1))]
              rw [show decide (m + 1 = 2 ^ (k + 2)) = true by
                simp only [decide_eq_true_eq]; omega]]
          rw [show m + 1 - 2 ^ (k + 1) = m - 2 ^ (k + 1) + 1 by omega]
          rw [show decide (m + 1 = 2 ^ (k + 2)) = true by
            simp only [decide_eq_true_eq]; omega]
        · rw [show decide (m - 2 ^ (k + 1) + 1 = 2 ^ (k + 1)) = false by simp [hfull]]
          rw [if_neg (by simp : ¬ (false : Bool) = true)]
          rw [show partN le lv (k + 2) pre (m + 1) = .ifN (le pre) none false
            (.node (partN le lv (k + 1) (pre ++ [false]) (2 ^ (k + 1))))
            (.node (partN le lv (k + 1) (pre ++ [true]) (m + 1 - 2 ^ (k + 1)))) by
              rw [partN, if_neg (by omega : ¬ m + 1 ≤ 2 ^ (k + 1))]
              rw [show decide (m + 1 = 2 ^ (k + 2)) = false by
                simp only [decide_eq_false_iff_not]; omega]]
          rw [show m + 1 - 2 ^ (k + 1) = m - 2 ^ (k + 1) + 1 by omega]
          rw [show decide (m + 1 = 2 ^ (k + 2)) = false by
            simp only [decide_eq_false_iff_not]; omega]

/-- One complete run of the target function (descend plus `reportEnd`)
advances the partial tree from `m` to `m + 1` leaves and resets the
position to the root. -/
theorem runOnce_partN {V : Type} (le : List Bool → Expr) (lv : List Bool → V)
    (k m : Nat) (hm : m < 2 ^ k) :
    runOnce baseExplorer () ⟨slotN le lv k [] m, []⟩ (fullProg k [] le lv) =
      .ok (⟨.node (partN le lv k [] (m + 1)), []⟩, ()) := by
  rcases k with _ | k
  · have hm0 : m = 0 := by simpa using hm
    subst hm0
    rfl
  · obtain ⟨r, hset, hre⟩ := fill_reExplore le lv k [] m hm
    unfold runOnce
    rw [descend_partN le lv (k + 1) [] m (slotN le lv (k + 1) [] m) [] hm rfl rfl]
    show rrReportEnd baseExplorer () ⟨descN le lv (k + 1) [] m, binIdx (k + 1) m⟩
      (lv ([] ++ binPath (k + 1) m)) = _
    unfold rrReportEnd
    rw [getAt_descN le lv (k + 1) [] m hm]
    dsimp only
    rw [hset]
    rw [if_neg (binIdx_ne_nil k m)]
    dsimp only
    rw [hre]

/-- The run loop started from the partial tree with `m` leaves and
`2^k − m` units of fuel finishes with the full tree. -/
theorem runLoop_partN {V : Type} (le : List Bool → Expr) (lv : List Bool → V)
    (k : Nat) :
    ∀ (j m : Nat), m + j = 2 ^ k → 1 ≤ m →
      runLoop baseExplorer j () ⟨.node (partN le lv k [] m), []⟩ (fullProg k [] le lv) =
        .ok (⟨.node (partN le lv k [] (2 ^ k)), []⟩, ()) := by
  intro j
  induction j with
  | zero =>
    intro m hm h1
    have hm' : m = 2 ^ k := by omega
    subst hm'
    show (if rrFinished ⟨.node (partN le lv k [] (2 ^ k)), []⟩ = true then _ else _) = _
    rw [show rrFinished (⟨.node (partN le lv k [] (2 ^ k)), []⟩ : GenState V) = true from
      partN_exploredN_full le lv k []]
    rw [if_pos rfl]
  | succ j ih =>
    intro m hm h1
    have hm' : m < 2 ^ k := by omega
    show (if rrFinished ⟨.node (partN le lv k [] m), []⟩ = true then _ else _) = _
    rw [show rrFinished (⟨.node (partN le lv k [] m), []⟩ : GenState V) = false from
      partN_exploredN_lt le lv k [] m h1 hm']
    rw [if_neg (by simp : ¬ (false : Bool) = true)]
    rw [show DKid.node (partN le lv k [] m) = slotN le lv k [] m by
      simp only [slotN, if_neg (by omega : ¬ m = 0)]]
    rw [runOnce_partN le lv k m hm']
    show runLoop baseExplorer j () ⟨.node (partN le lv k [] (m + 1)), []⟩
      (fullProg k [] le lv) = _
    exact ih (m + 1) (by omega) (by omega)

theorem partN_full_succ {V : Type} (le : List Bool → Expr) (lv : List Bool → V)
    (k : Nat) (pre : List Bool) :
    partN le lv (k + 1) pre (2 ^ (k + 1)) =
      .ifN (le pre) none true (.node (partN le lv k (pre ++ [false]) (2 ^ k)))
        (.node (partN le lv k (pre ++ [true]) (2 ^ k))) := by
  have h2 : (2 : Nat) ^ (k + 1) = 2 ^ k * 2 := pow_succ 2 k
  have hp := Nat.two_pow_pos k
  rw [partN, if_neg (by omega : ¬ 2 ^ (k + 1) ≤ 2 ^ k)]
  rw [show decide (2 ^ (k + 1) = 2 ^ (k + 1)) = true by simp]
  rw [show 2 ^ (k + 1) - 2 ^ k = 2 ^ k by omega]

theorem countRet_partN_full {V : Type} (le : List Bool → Expr) (lv : List Bool → V)
    (k : Nat) : ∀ pre : List Bool, countRetN (partN le lv k pre (2 ^ k)) = 2 ^ k := by
  induction k with
  | zero => intro pre; rfl
  | succ k ih =>
    intro pre
    rw [partN_full_succ]
    show countRetN (partN le lv k (pre ++ [false]) (2 ^ k)) +
      countRetN (partN le lv k (pre ++ [true]) (2 ^ k)) = 2 ^ (k + 1)
    rw [ih (pre ++ [false]), ih (pre ++ [true])]
    have h2 : (2 : Nat) ^ (k + 1) = 2 ^ k * 2 := pow_succ 2 k
    omega

theorem countIf_partN_full {V : Type} (le : List Bool → Expr) (lv : List Bool → V)
    (k : Nat) : ∀ pre : List Bool, countIfN (partN le lv k pre (2 ^ k)) = 2 ^ k - 1 := by
  induction k with
  | zero => intro pre; rfl
  | succ k ih =>
    intro pre
    rw [partN_full_succ]
    show 1 + countIfN (partN le lv k (pre ++ [false]) (2 ^ k)) +
      countIfN (partN le lv k (pre ++ [true]) (2 ^ k)) = 2 ^ (k + 1) - 1
    rw [ih (pre ++ [false]), ih (pre ++ [true])]
    have h2 : (2 : Nat) ^ (k + 1) = 2 ^ k * 2 := pow_succ 2 k
    have hp := Nat.two_pow_pos k
    omega

theorem leafPaths_nodup_partN {V : Type} (le : List Bool → Expr) (lv : List Bool → V)
    (k : Nat) : ∀ pre : List Bool, (leafPathsN (partN le lv k pre (2 ^ k))).Nodup := by
  induction k with
  | zero => intro pre; simp [partN, leafPathsN]
  | succ k ih =>
    intro pre
    rw [partN_full_succ]
    show ((leafPathsN (partN le lv k (pre ++ [false]) (2 ^ k))).map (List.cons false) ++
      (leafPathsN (partN le lv k (pre ++ [true]) (2 ^ k))).map (List.cons true)).Nodup
    refine List.Nodup.append ?_ ?_ ?_
    · exact (ih (pre ++ [false])).map (fun a b h => by injection h)
    · exact (ih (pre ++ [true])).map (fun a b h => by injection h)
    · intro x hx hy
      obtain ⟨a, _, ha⟩ := List.mem_map.mp hx
      obtain ⟨b, _, hb⟩ := List.mem_map.mp hy
      rw [← ha] at hb
      injection hb with h1 h2
      cases h1

/-- C2: exhaustiveness under the trivial policy.  For every target
function with exactly `k` structurally independent boolean decisions on
every path (conditions `le`, leaf values `lv`), `RepeatedRunTreeGen.run`
with the base `TreeExplorer` terminates within `2^k` runs; the finished
tree has exactly `2^k` `ReturnNode` leaves and `2^k − 1` `IfNode`s, no
two leaves share a root-to-leaf decision sequence, and the generator
reports itself finished. -/
theorem trivial_policy_exhaustive {V : Type} (k : Nat) (le : List Bool → Expr)
    (lv : List Bool → V) :
    ∃ t : DNode V,
      runLoop baseExplorer (2 ^ k) () ⟨.none, []⟩ (fullProg k [] le lv) =
        .ok (⟨.node t, []⟩, ()) ∧
      countRetN t = 2 ^ k ∧
      countIfN t = 2 ^ k - 1 ∧
      (leafPathsN t).Nodup ∧
      rrFinished (⟨.node t, []⟩ : GenState V) = true := by
  refine ⟨partN le lv k [] (2 ^ k), ?_, countRet_partN_full le lv k [],
    countIf_partN_full le lv k [], leafPaths_nodup_partN le lv k [],
    partN_exploredN_full le lv k []⟩
  have hp := Nat.two_pow_pos k
  nth_rewrite 1 [show (2 : Nat) ^ k = (2 ^ k - 1) + 1 by omega]
  show (if rrFinished ⟨(.none : DKid V), []⟩ = true then _ else _) = _
  rw [if_neg (by simp [rrFinished, DKid.explored] : ¬ rrFinished (⟨(.none : DKid V), []⟩ : GenState V) = true)]
  rw [show (DKid.none : DKid V) = slotN le lv k [] 0 from rfl]
  rw [runOnce_partN le lv k 0 hp]
  show runLoop baseExplorer (2 ^ k - 1) () ⟨.node (partN le lv k [] (0 + 1)), []⟩
    (fullProg k [] le lv) = _
  exact runLoop_partN le lv k (2 ^ k - 1) 1 (by omega) (by omega)

/-- C7: boolean forcing requires an active engine.  `Expr.__bool__`
raises "forking on expressions is disabled." when `globalTreeGen` is
`None`, and otherwise returns exactly the engine's `decideIf` on the
expression. -/
theorem expr_bool_requires_engine {V S : Type} (ex : TreeExplorerI S) (e : Expr) :
    (exprBool ex (none : Option (GenState V × S)) e =
      .error "forking on expressions is disabled.") ∧
    ∀ (g : GenState V) (σ : S), exprBool ex (some (g, σ)) e = rrDecideIf ex σ g e :=
  ⟨rfl, fun _ _ => rfl⟩

/-- C4 (amended): replay semantics of `RepeatedRunTreeGen.decideIf` at an
existing `IfNode`.  With zero unexplored child slots the call raises;
with exactly one unexplored slot it descends into it and returns the
corresponding boolean without consulting the explorer; with two
unexplored slots it does NOT raise immediately: it consults the
explorer, raises only if the explorer answers `exploreOtherSide=False`,
and otherwise descends and returns the explorer's boolean. -/
theorem replay_slot_semantics {V S : Type} (ex : TreeExplorerI S) (σ : S) (g : GenState V)
    (e e0 : Expr) (se : Option Expr) (fl : Bool) (k0 k1 : DKid V)
    (hT : getAt g.root g.pos = .node (.ifN e0 se fl k0 k1)) :
    (k0.explored = true → k1.explored = true →
      rrDecideIf ex σ g e =
        .error "assertion failed: sum(kidStatuses) < len(kidStatuses)") ∧
    (k0.explored = true → k1.explored = false →
      rrDecideIf ex σ g e = .ok (true, ⟨g.root, g.pos ++ [1]⟩, ex.noteIf σ e true)) ∧
    (k0.explored = false → k1.explored = true →
      rrDecideIf ex σ g e = .ok (false, ⟨g.root, g.pos ++ [0]⟩, ex.noteIf σ e false)) ∧
    (k0.explored = false → k1.explored = false →
      rrDecideIf ex σ g e =
        (if (ex.decideIf σ e).2.1 then
          .ok ((ex.decideIf σ e).1,
            ⟨g.root, g.pos ++ [if (ex.decideIf σ e).1 then 1 else 0]⟩,
            (ex.decideIf σ e).2.2.2)
        else .error "TreeExplorer.decideIf outputs inconsistent checkOther")) := by
  refine ⟨?_, ?_, ?_, ?_⟩ <;> intro h0 h1 <;>
    simp only [rrDecideIf, hT, h0, h1, Bool.and_self, Bool.and_true, Bool.true_and,
      Bool.and_false, Bool.false_and, Bool.false_eq_true, if_false,
      eq_self_iff_true, if_true]

/-- C4 counterexample: at an `IfNode` whose two child slots are both
unexplored, `decideIf` does not raise: with the base explorer it
descends into the false side and returns `False`. -/
theorem replay_two_unexplored_no_raise_cex :
    rrDecideIf baseExplorer ()
      (⟨.node (.ifN (Expr.var "x") none false .none .none), []⟩ : GenState Unit)
      (Expr.var "x") =
      .ok (false, ⟨.node (.ifN (Expr.var "x") none false .none .none), [0]⟩, ()) := by
  with_unfolding_all rfl

/-- Witness for C4 at a concrete two-slot `IfNode` with the base
explorer. -/
theorem replay_slot_semantics_witness :
    ((DKid.none : DKid Unit).explored = true → (DKid.none : DKid Unit).explored = true →
      rrDecideIf baseExplorer ()
        (⟨.node (.ifN (Expr.var "x") none false .none .none), []⟩ : GenState Unit)
        (Expr.var "x") =
        .error "assertion failed: sum(kidStatuses) < len(kidStatuses)") ∧
    ((DKid.none : DKid Unit).explored = true → (DKid.none : DKid Unit).explored = false →
      rrDecideIf baseExplorer ()
        (⟨.node (.ifN (Expr.var "x") none false .none .none), []⟩ : GenState Unit)
        (Expr.var "x") =
        .ok (true, ⟨.node (.ifN (Expr.var "x") none false .none .none), [] ++ [1]⟩,
          baseExplorer.noteIf () (Expr.var "x") true)) ∧
    ((DKid.none : DKid Unit).explored = false → (DKid.none : DKid Unit).explored = true →
      rrDecideIf baseExplorer ()
        (⟨.node (.ifN (Expr.var "x") none false .none .none), []⟩ : GenState Unit)
        (Expr.var "x") =
        .ok (false, ⟨.node (.ifN (Expr.var "x") none false .none .none), [] ++ [0]⟩,
          baseExplorer.noteIf () (Expr.var "x") false)) ∧
    ((DKid.none : DKid Unit).explored = false → (DKid.none : DKid Unit).explored = false →
      rrDecideIf baseExplorer ()
        (⟨.node (.ifN (Expr.var "x") none false .none .none), []⟩ : GenState Unit)
        (Expr.var "x") =
        (if (baseExplorer.decideIf () (Expr.var "x")).2.1 then
          .ok ((baseExplorer.decideIf () (Expr.var "x")).1,
            ⟨.node (.ifN (Expr.var "x") none false .none .none),
             [] ++ [if (baseExplorer.decideIf () (Expr.var "x")).1 then 1 else 0]⟩,
            (baseExplorer.decideIf () (Expr.var "x")).2.2.2)
        else .error "TreeExplorer.decideIf outputs inconsistent checkOther")) :=
  replay_slot_semantics baseExplorer ()
    (⟨.node (.ifN (Expr.var "x") none false .none .none), []⟩ : GenState Unit)
    (Expr.var "x") (Expr.var "x") none false .none .none rfl

/-- C8: contradicted commitment raises.  At an existing `IfNode` with
both child slots unexplored (the engine previously committed to
exploring both sides), an explorer answering `exploreOtherSide=False`
makes `decideIf` raise immediately, returning no new state. -/
theorem contradicted_commitment_raises {V S : Type} (ex : TreeExplorerI S) (σ : S)
    (g : GenState V) (e e0 : Expr) (se se' : Option Expr) (fl b : Bool)
    (k0 k1 : DKid V) (σ' : S)
    (hT : getAt g.root g.pos = .node (.ifN e0 se fl k0 k1))
    (h0 : k0.explored = false) (h1 : k1.explored = false)
    (hd : ex.decideIf σ e = (b, false, se', σ')) :
    rrDecideIf ex σ g e =
      .error "TreeExplorer.decideIf outputs inconsistent checkOther" := by
  simp only [rrDecideIf, hT, h0, h1, Bool.and_self, Bool.false_eq_true, if_false, hd]

/-- Witness for C8: a `CachedTreeExplorer` with the expression already
cached answers `(cached, False, None)`, and the engine raises. -/
theorem contradicted_commitment_raises_witness :
    rrDecideIf cachedExplorerI (⟨[((Expr.var "x").key, false)]⟩ : CachedTreeExplorer)
      (⟨.node (.ifN (Expr.var "x") none false .none .none), []⟩ : GenState Unit)
      (Expr.var "x") =
      .error "TreeExplorer.decideIf outputs inconsistent checkOther" :=
  contradicted_commitment_raises cachedExplorerI
    (⟨[((Expr.var "x").key, false)]⟩ : CachedTreeExplorer)
    (⟨.node (.ifN (Expr.var "x") none false .none .none), []⟩ : GenState Unit)
    (Expr.var "x") (Expr.var "x") none none false false .none .none
    (⟨[((Expr.var "x").key, false)]⟩ : CachedTreeExplorer)
    rfl rfl rfl (by with_unfolding_all rfl)

/-! ### The explored-flag invariant -/

theorem kidAt_oor {V : Type} (n : DNode V) (i : Nat) (h : ¬ i < nkids n) :
    kidAt n i = .none := by
  cases n <;> rcases i with _ | _ | i <;>
    first
      | rfl
      | (exfalso; exact h (by simp only [nkids]; omega))

theorem kidAt_node_range {V : Type} (n : DNode V) (i : Nat) (k : DNode V)
    (h : kidAt n i = .node k) : i < nkids n := by
  by_contra hc
  rw [kidAt_oor n i hc] at h
  cases h

theorem flag_eq_allKids {V : Type} (n : DNode V) (hf : flagsGoodN n = true) :
    n.exploredN = allKidsExplored n := by
  cases n <;>
    simp only [flagsGoodN, Bool.and_eq_true, beq_iff_eq] at hf <;>
    first
      | rfl
      | (exact hf.1.1)
      | (exact hf.1)

theorem flagsGoodK_kidAt {V : Type} (n : DNode V) (i : Nat)
    (hf : flagsGoodN n = true) : flagsGoodK (kidAt n i) = true := by
  cases n <;> rcases i with _ | _ | i <;>
    simp only [flagsGoodN, Bool.and_eq_true] at hf <;>
    first
      | rfl
      | (exact hf.1.2)
      | (exact hf.2)

theorem allKids_false_of_kid_unexplored {V : Type} (n : DNode V) (i : Nat)
    (hi : i < nkids n) (hk : (kidAt n i).explored = false) :
    allKidsExplored n = false := by
  cases n <;> rcases i with _ | _ | i <;>
    simp only [nkids] at hi <;>
    first
      | omega
      | (simp only [kidAt] at hk; simp [allKidsExplored, hk])

theorem kidsGood_of_flagsGood {V : Type} (n : DNode V) (hf : flagsGoodN n = true) :
    kidsGood n = true := by
  cases n <;>
    simp only [flagsGoodN, Bool.and_eq_true] at hf <;>
    simp only [kidsGood, Bool.and_eq_true] <;>
    first
      | rfl
      | (exact hf.2)
      | (exact ⟨hf.1.2, hf.2⟩)

theorem kidsGood_withKid {V : Type} (n : DNode V) (i : Nat) (K : DKid V)
    (hn : kidsGood n = true) (hK : flagsGoodK K = true) :
    kidsGood (withKid n i K) = true := by
  cases n <;> rcases i with _ | _ | i <;>
    simp only [kidsGood, withKid, Bool.and_eq_true] at hn ⊢ <;>
    first
      | rfl
      | (exact hK)
      | (exact hn)
      | (exact ⟨hK, hn.2⟩)
      | (exact ⟨hn.1, hK⟩)

theorem kidsGoodExcept_withKid_self {V : Type} (n : DNode V) (i : Nat) (K : DKid V) :
    kidsGoodExcept (withKid n i K) i = kidsGoodExcept n i := by
  cases n <;> rcases i with _ | _ | i <;> rfl

theorem kidsGoodExcept_of_flagsGood {V : Type} (n : DNode V) (i : Nat)
    (hf : flagsGoodN n = true) (hi : i < nkids n) : kidsGoodExcept n i = true := by
  cases n <;> rcases i with _ | _ | i <;>
    simp only [nkids] at hi <;>
    simp only [flagsGoodN, Bool.and_eq_true] at hf <;>
    first
      | rfl
      | (exact hf.2)
      | (exact hf.1.2)
      | omega

theorem kidsGood_of_except {V : Type} (n : DNode V) (i : Nat) (K : DKid V)
    (he : kidsGoodExcept n i = true) (hK : flagsGoodK K = true) :
    kidsGood (withKid n i K) = true := by
  cases n <;> rcases i with _ | _ | i <;>
    simp only [kidsGoodExcept] at he <;>
    simp only [kidsGood, withKid, Bool.and_eq_true] <;>
    first
      | rfl
      | (exact hK)
      | (exact ⟨hK, he⟩)
      | (exact ⟨he, hK⟩)
      | (cases he)

theorem allKids_setFlag {V : Type} (n : DNode V) :
    allKidsExplored (setFlag n) = allKidsExplored n := by
  cases n <;> rfl

theorem kidsGood_setFlag {V : Type} (n : DNode V) :
    kidsGood (setFlag n) = kidsGood n := by
  cases n <;> rfl

theorem flagsGoodN_mk {V : Type} (n : DNode V)
    (h1 : (n.exploredN == allKidsExplored n) = true) (h2 : kidsGood n = true) :
    flagsGoodN n = true := by
  cases n <;>
    simp only [DNode.exploredN, allKidsExplored, kidsGood, Bool.and_eq_true] at h1 h2 <;>
    simp only [flagsGoodN, Bool.and_eq_true] <;>
    first
      | rfl
      | (exact ⟨h1, h2⟩)
      | (exact ⟨⟨h1, h2.1⟩, h2.2⟩)

/-- A subtree with good flags that still contains a reachable empty slot
is unexplored. -/
theorem explored_false_of_hole {V : Type} :
    ∀ (π : List Nat) (T : DKid V), flagsGoodK T = true → validSlot T π = true →
      getAt T π = .none → T.explored = false := by
  intro π
  induction π with
  | nil =>
    intro T _ _ hg
    have hT : T = .none := hg
    rw [hT]
    rfl
  | cons i π ih =>
    intro T hf hv hg
    cases T with
    | none => rfl
    | node n =>
      simp only [validSlot, Bool.and_eq_true, decide_eq_true_eq] at hv
      have hk : (kidAt n i).explored = false :=
        ih (kidAt n i) (flagsGoodK_kidAt n i hf) hv.2 hg
      show n.exploredN = false
      rw [flag_eq_allKids n hf]
      exact allKids_false_of_kid_unexplored n i hv.1 hk

/-- Writing into an empty slot never clears an explored flag anywhere. -/
theorem mono_setAt {V : Type} :
    ∀ (π : List Nat) (T W : DKid V), getAt T π = .none →
      ∀ ρ, (getAt T ρ).explored = true → (getAt (setAt T π W) ρ).explored = true := by
  intro π
  induction π with
  | nil =>
    intro T W h ρ hρ
    have hT : T = .none := h
    rw [hT, getAt_none] at hρ
    cases hρ
  | cons i π ih =>
    intro T W h ρ hρ
    cases T with
    | none => exact hρ
    | node n =>
      have h' : getAt (kidAt n i) π = .none := h
      cases ρ with
      | nil =>
        show (DKid.node (withKid n i (setAt (kidAt n i) π W))).explored = true
        show (withKid n i (setAt (kidAt n i) π W)).exploredN = true
        rw [exploredN_withKid]
        exact hρ
      | cons j ρ =>
        show (getAt (kidAt (withKid n i (setAt (kidAt n i) π W)) j) ρ).explored = true
        by_cases hj : j = i
        · subst hj
          by_cases hr : j < nkids n
          · rw [kidAt_withKid_self n j _ hr]
            exact ih (kidAt n j) W h' ρ hρ
          · rw [withKid_oor n j _ hr]
            exact hρ
        · rw [kidAt_withKid_ne n i j _ hj]
          exact hρ

/-- `setExploreStatusRec` never clears an explored flag anywhere. -/
theorem reExplore_mono {V : Type} :
    ∀ (π : List Nat) (r : DNode V) (ρ : List Nat),
      (getAt (.node r) ρ).explored = true →
      (getAt (.node (reExplore r π).1) ρ).explored = true := by
  intro π
  induction π with
  | nil =>
    intro r ρ hρ
    show (getAt (.node (if allKidsExplored r then (setFlag r, true) else (r, false)).1) ρ).explored = true
    by_cases hall : allKidsExplored r = true
    · rw [if_pos hall]
      cases ρ with
      | nil => exact exploredN_setFlag r
      | cons j ρ =>
        show (getAt (kidAt (setFlag r) j) ρ).explored = true
        rw [kidAt_setFlag]
        exact hρ
    · rw [if_neg hall]
      exact hρ
  | cons i π ih =>
    intro r ρ hρ
    cases hk : kidAt r i with
    | none =>
      show (getAt (.node (match kidAt r i with
        | .none => (r, false)
        | .node k =>
          match reExplore k π with
          | (k', prop) =>
            let n' := withKid r i (.node k')
            if prop then
              if allKidsExplored n' then (setFlag n', true) else (n', false)
            else (n', false)).1) ρ).explored = true
      rw [hk]
      exact hρ
    | node k =>
      rw [reExplore_cons r i π k hk]
      have hA : ∀ ρ, (getAt (.node r) ρ).explored = true →
          (getAt (.node (withKid r i (.node (reExplore k π).1))) ρ).explored = true := by
        intro ρ hρ
        cases ρ with
        | nil =>
          show (withKid r i (.node (reExplore k π).1)).exploredN = true
          rw [exploredN_withKid]
          exact hρ
        | cons j ρ =>
          show (getAt (kidAt (withKid r i (.node (reExplore k π).1)) j) ρ).explored = true
          by_cases hj : j = i
          · subst hj
            rw [kidAt_withKid_self r j _ (kidAt_node_range r j k hk)]
            have hρ2 : (getAt (.node k) ρ).explored = true := by
              have h2 : (getAt (kidAt r j) ρ).explored = true := hρ
              rw [hk] at h2
              exact h2
            exact ih k ρ hρ2
          · rw [kidAt_withKid_ne r i j _ hj]
            exact hρ
      by_cases hp : (reExplore k π).2 = true
      · rw [if_pos hp]
        by_cases hall : allKidsExplored (withKid r i (.node (reExplore k π).1)) = true
        · rw [if_pos hall]
          cases ρ with
          | nil => exact exploredN_setFlag _
          | cons j ρ =>
            show (getAt (kidAt (setFlag (withKid r i (.node (reExplore k π).1))) j) ρ).explored = true
            rw [kidAt_setFlag]
            exact hA (j :: ρ) hρ
        · rw [if_neg hall]
          exact hA ρ hρ
      · rw [if_neg hp]
        exact hA ρ hρ

/-- After writing a node with good flags into an empty slot of a tree
with good flags, the tree satisfies the `offGood` shape along the
parent path. -/
theorem write_offGood {V : Type} :
    ∀ (π : List Nat) (T : DKid V) (w : DNode V),
      flagsGoodK T = true → validSlot T π = true → getAt T π = .none →
      π ≠ [] → flagsGoodN w = true →
      ∃ r, setAt T π (.node w) = .node r ∧ offGood r π.dropLast = true := by
  intro π
  induction π with
  | nil => intro T w _ _ _ hne _; exact absurd rfl hne
  | cons i π ih =>
    intro T w hf hv hg _ hw
    cases T with
    | none => simp [validSlot] at hv
    | node n =>
      simp only [validSlot, Bool.and_eq_true, decide_eq_true_eq] at hv
      cases π with
      | nil =>
        refine ⟨withKid n i (.node w), rfl, ?_⟩
        show (!(withKid n i (.node w)).exploredN && kidsGood (withKid n i (.node w))) = true
        rw [exploredN_withKid]
        have hkid : (kidAt n i).explored = false := by
          have hgk : kidAt n i = .none := hg
          rw [hgk]
          rfl
        rw [flag_eq_allKids n hf, allKids_false_of_kid_unexplored n i hv.1 hkid]
        rw [kidsGood_withKid n i (.node w) (kidsGood_of_flagsGood n hf) hw]
        rfl
      | cons j π2 =>
        have hvk : validSlot (kidAt n i) (j :: π2) = true := hv.2
        have hgk : getAt (kidAt n i) (j :: π2) = .none := hg
        obtain ⟨r2, hset2, hoff2⟩ :=
          ih (kidAt n i) w (flagsGoodK_kidAt n i hf) hvk hgk (by simp) hw
        refine ⟨withKid n i (.node r2), ?_, ?_⟩
        · show DKid.node (withKid n i (setAt (kidAt n i) (j :: π2) (.node w))) = _
          rw [hset2]
        · show (!(withKid n i (.node r2)).exploredN &&
            (match kidAt (withKid n i (.node r2)) i with
              | .node k => offGood k (j :: π2).dropLast
              | .none => false) &&
            kidsGoodExcept (withKid n i (.node r2)) i) = true
          rw [exploredN_withKid, kidAt_withKid_self n i _ hv.1, kidsGoodExcept_withKid_self]
          have hkid : (kidAt n i).explored = false :=
            explored_false_of_hole (j :: π2) (kidAt n i) (flagsGoodK_kidAt n i hf) hvk hgk
          rw [flag_eq_allKids n hf, allKids_false_of_kid_unexplored n i hv.1 hkid]
          dsimp only
          rw [hoff2, kidsGoodExcept_of_flagsGood n i hf hv.1]
          rfl

/-- `setExploreStatusRec` restores good flags from the `offGood` shape;
the propagation bit equals the final flag of the node it was invoked
under. -/
theorem reExplore_fix {V : Type} :
    ∀ (ρ : List Nat) (r : DNode V), offGood r ρ = true →
      flagsGoodN (reExplore r ρ).1 = true ∧
      (reExplore r ρ).2 = (reExplore r ρ).1.exploredN := by
  intro ρ
  induction ρ with
  | nil =>
    intro r hoff
    simp only [offGood, Bool.and_eq_true, Bool.not_eq_true'] at hoff
    have hre : reExplore r [] = if allKidsExplored r then (setFlag r, true) else (r, false) :=
      rfl
    rw [hre]
    by_cases hall : allKidsExplored r = true
    · rw [if_pos hall]
      refine ⟨flagsGoodN_mk _ ?_ ?_, ?_⟩
      · rw [exploredN_setFlag, allKids_setFlag, hall]
        rfl
      · rw [kidsGood_setFlag]
        exact hoff.2
      · show true = (setFlag r).exploredN
        rw [exploredN_setFlag]
    · rw [if_neg hall]
      have hallF : allKidsExplored r = false := by
        cases hb : allKidsExplored r
        · rfl
        · exact absurd hb hall
      refine ⟨flagsGoodN_mk r ?_ hoff.2, ?_⟩
      · rw [hoff.1, hallF]
        rfl
      · show false = r.exploredN
        rw [hoff.1]
  | cons i ρ ih =>
    intro r hoff
    cases hk : kidAt r i with
    | none =>
      simp only [offGood, hk, Bool.and_eq_true] at hoff
      simp at hoff
    | node k =>
      simp only [offGood, hk, Bool.and_eq_true, Bool.not_eq_true'] at hoff
      obtain ⟨⟨hflag, hoffk⟩, hexc⟩ := hoff
      obtain ⟨ihg, ihp⟩ := ih k hoffk
      rw [reExplore_cons r i ρ k hk]
      have hrange : i < nkids r := kidAt_node_range r i k hk
      have hkidsG : kidsGood (withKid r i (.node (reExplore k ρ).1)) = true :=
        kidsGood_of_except r i _ hexc ihg
      have hflagW : (withKid r i (.node (reExplore k ρ).1)).exploredN = false := by
        rw [exploredN_withKid]
        exact hflag
      by_cases hp : (reExplore k ρ).2 = true
      · rw [if_pos hp]
        by_cases hall : allKidsExplored (withKid r i (.node (reExplore k ρ).1)) = true
        · rw [if_pos hall]
          refine ⟨flagsGoodN_mk _ ?_ ?_, ?_⟩
          · rw [exploredN_setFlag, allKids_setFlag, hall]
            rfl
          · rw [kidsGood_setFlag]
            exact hkidsG
          · show true = (setFlag _).exploredN
            rw [exploredN_setFlag]
        · rw [if_neg hall]
          have hallF : allKidsExplored (withKid r i (.node (reExplore k ρ).1)) = false := by
            cases hb : allKidsExplored (withKid r i (.node (reExplore k ρ).1))
            · rfl
            · exact absurd hb hall
          refine ⟨flagsGoodN_mk _ ?_ hkidsG, ?_⟩
          · rw [hflagW, hallF]
            rfl
          · show false = _
            rw [hflagW]
      · rw [if_neg hp]
        have hKflag : (reExplore k ρ).1.exploredN = false := by
          cases hb : (reExplore k ρ).2
          · rw [hb] at ihp
            exact ihp.symm
          · exact absurd hb hp
        have hallF : allKidsExplored (withKid r i (.node (reExplore k ρ).1)) = false := by
          refine allKids_false_of_kid_unexplored _ i ?_ ?_
          · rw [nkids_withKid]
            exact hrange
          · rw [kidAt_withKid_self r i _ hrange]
            exact hKflag
        refine ⟨flagsGoodN_mk _ ?_ hkidsG, ?_⟩
        · rw [hflagW, hallF]
          rfl
        · show false = _
          rw [hflagW]

/-- C3: the explored-flag invariant.  In a generator state with good
flags (every node's flag equals "all child slots filled and explored")
and a valid current position, provided the three operations succeed:
`ReturnNode`s are created explored; after `reportEnd` the flags are
again good everywhere; and none of `reportEnd`, `decideIf`, `addInfo`
ever clears an explored flag anywhere in the tree. -/
theorem explored_flag_invariant {V S : Type} (ex : TreeExplorerI S) (σ : S)
    (g : GenState V) (v w : V) (e : Expr) (verb : String)
    (g1 : GenState V) (σ1 : S) (b : Bool) (g2 : GenState V) (σ2 : S) (g3 : GenState V)
    (hf : flagsGoodK g.root = true) (hv : validSlot g.root g.pos = true)
    (hre : rrReportEnd ex σ g v = .ok (g1, σ1))
    (hd : rrDecideIf ex σ g e = .ok (b, g2, σ2))
    (ha : rrAddInfo g w verb = .ok g3) :
    (DNode.ret v).exploredN = true ∧
    flagsGoodK g1.root = true ∧
    (∀ ρ, (getAt g.root ρ).explored = true → (getAt g1.root ρ).explored = true) ∧
    (∀ ρ, (getAt g.root ρ).explored = true → (getAt g2.root ρ).explored = true) ∧
    (∀ ρ, (getAt g.root ρ).explored = true → (getAt g3.root ρ).explored = true) := by
  have hget : getAt g.root g.pos = .none := by
    unfold rrReportEnd at hre
    cases hg0 : getAt g.root g.pos with
    | node n =>
      simp only [hg0] at hre
      exact Except.noConfusion hre
    | none => rfl
  have hre2 : g1 = ⟨(if g.pos = [] then setAt g.root g.pos (.node (.ret v))
      else match setAt g.root g.pos (.node (.ret v)) with
        | .none => .none
        | .node r => .node (reExplore r g.pos.dropLast).1), []⟩ := by
    unfold rrReportEnd at hre
    simp only [hget, Except.ok.injEq, Prod.mk.injEq] at hre
    exact hre.1.symm
  have hmono2 : ∀ ρ, (getAt g.root ρ).explored = true → (getAt g2.root ρ).explored = true := by
    unfold rrDecideIf at hd
    simp only [hget] at hd
    split at hd <;>
      (simp only [Except.ok.injEq, Prod.mk.injEq] at hd
       intro ρ hρ
       rw [← hd.2.1]
       exact mono_setAt g.pos g.root _ hget ρ hρ)
  have hmono3 : ∀ ρ, (getAt g.root ρ).explored = true → (getAt g3.root ρ).explored = true := by
    unfold rrAddInfo at ha
    simp only [hget, Except.ok.injEq] at ha
    intro ρ hρ
    rw [← ha]
    exact mono_setAt g.pos g.root _ hget ρ hρ
  by_cases hpos : g.pos = []
  · have hrootN : g.root = .none := by
      rw [hpos] at hget
      exact hget
    have hg1 : g1.root = .node (.ret v) := by
      rw [hre2]
      simp only [if_pos hpos, hpos]
      rfl
    refine ⟨rfl, ?_, ?_, hmono2, hmono3⟩
    · rw [hg1]
      rfl
    · intro ρ hρ
      rw [hrootN, getAt_none] at hρ
      simp [DKid.explored] at hρ
  · obtain ⟨r, hsetr, hoffr⟩ := write_offGood g.pos g.root (.ret v) hf hv hget hpos rfl
    have hg1 : g1.root = .node (reExplore r g.pos.dropLast).1 := by
      rw [hre2]
      simp only [if_neg hpos, hsetr]
    refine ⟨rfl, ?_, ?_, hmono2, hmono3⟩
    · rw [hg1]
      exact (reExplore_fix g.pos.dropLast r hoffr).1
    · intro ρ hρ
      rw [hg1]
      have s1 := mono_setAt g.pos g.root (.node (.ret v)) hget ρ hρ
      rw [hsetr] at s1
      exact reExplore_mono g.pos.dropLast r ρ s1

/-- Witness for C3 at a concrete state: an `IfNode` whose false slot is
the current position, with the base explorer. -/
theorem explored_flag_invariant_witness :
    (DNode.ret (0 : ℚ)).exploredN = true ∧
    flagsGoodK (⟨.node (.ifN (Expr.var "x") none false (.node (.ret (0 : ℚ))) .none),
      ([] : List Nat)⟩ : GenState ℚ).root = true ∧
    (∀ ρ, (getAt (⟨.node (.ifN (Expr.var "x") none false .none .none), [0]⟩ :
        GenState ℚ).root ρ).explored = true →
      (getAt (⟨.node (.ifN (Expr.var "x") none false (.node (.ret (0 : ℚ))) .none),
        ([] : List Nat)⟩ : GenState ℚ).root ρ).explored = true) ∧
    (∀ ρ, (getAt (⟨.node (.ifN (Expr.var "x") none false .none .none), [0]⟩ :
        GenState ℚ).root ρ).explored = true →
      (getAt (⟨.node (.ifN (Expr.var "x") none false
        (.node (.ifN (Expr.var "y") none false .none .none)) .none), [0, 0]⟩ :
          GenState ℚ).root ρ).explored = true) ∧
    (∀ ρ, (getAt (⟨.node (.ifN (Expr.var "x") none false .none .none), [0]⟩ :
        GenState ℚ).root ρ).explored = true →
      (getAt (⟨.node (.ifN (Expr.var "x") none false
        (.node (.infoN (5 : ℚ) "yield" false .none)) .none), [0, 0]⟩ :
          GenState ℚ).root ρ).explored = true) :=
  explored_flag_invariant baseExplorer ()
    (⟨.node (.ifN (Expr.var "x") none false .none .none), [0]⟩ : GenState ℚ)
    (0 : ℚ) (5 : ℚ) (Expr.var "y") "yield"
    (⟨.node (.ifN (Expr.var "x") none false (.node (.ret (0 : ℚ))) .none),
      ([] : List Nat)⟩ : GenState ℚ) () false
    (⟨.node (.ifN (Expr.var "x") none false
      (.node (.ifN (Expr.var "y") none false .none .none)) .none), [0, 0]⟩ : GenState ℚ) ()
    (⟨.node (.ifN (Expr.var "x") none false
      (.node (.infoN (5 : ℚ) "yield" false .none)) .none), [0, 0]⟩ : GenState ℚ)
    (by with_unfolding_all rfl) (by with_unfolding_all rfl)
    (by with_unfolding_all rfl) (by with_unfolding_all rfl) (by with_unfolding_all rfl)

end Code2dtree
